import Mathlib

/-!
Shallow embedding of the `Simple-High-precision-Integer` repository
(`src/big_uint.hpp`, `src/fraction.hpp`) and proofs about it.

`big_uint` stores a little-endian vector of 32-bit limbs with no redundant
leading zero limb (the value zero is exactly the one-limb vector `[0]`).
We model the limb vector as `List ℕ` (each entry < 2^32) together with its
numeric value, and we model the purely value-determined routines
(division, gcd, the fraction layer) directly on `ℕ`, re-expressing the
branch conditions `bits()` / `blocks()` through the value; bridge lemmas
(`bu_bits_eq`, `norm_length_eq`) show that on normalized limb vectors
the structural quantities agree with these value-level functions.

Every loop of the C++ source is modelled as a fuel-indexed structural
recursion; the wrapper definitions supply a fuel that provably exceeds the
number of iterations the loop can perform, so the models are total and
compute by `rfl`/`decide`.
-/

/-- Decidable equality for `Except` results (ℕ- and `Frac`-valued), so the
concrete evaluations below go through `decide`. -/
instance {ε α : Type} [DecidableEq ε] [DecidableEq α] : DecidableEq (Except ε α)
  | .error e, .error f =>
    if h : e = f then .isTrue (by rw [h]) else .isFalse (fun hc => h (Except.error.inj hc))
  | .error _, .ok _ => .isFalse Except.noConfusion
  | .ok _, .error _ => .isFalse Except.noConfusion
  | .ok a, .ok b =>
    if h : a = b then .isTrue (by rw [h]) else .isFalse (fun hc => h (Except.ok.inj hc))

/-! ### chenc::tools and value-level helpers -/

/-- Fuel-indexed floor of log base 2: `log2F f n = ⌊log₂ n⌋` whenever `f ≥ n ≥ 1`. -/
def log2F : ℕ → ℕ → ℕ
  | 0, _ => 0
  | fuel + 1, n => if n ≤ 1 then 0 else log2F fuel (n / 2) + 1

/-- `chenc::tools::highest_bit_index` / `big_uint::bits()` at value level:
the zero-based index of the most significant set bit (`0` for the value `0`).
The C++ computes `(sizeof(T)*8-1) - countl_zero(n)` per limb and
`(size-1)*32 + highest_bit_index(back)` for the vector; the bridge lemma
`bu_bits_eq` relates the structural version to this one. -/
def bitsV (n : ℕ) : ℕ := log2F n n

/-- `big_uint::blocks()` (the limb count) at value level: normalized vectors
have `⌊log₂ n⌋ / 32 + 1` limbs (and the zero value has one limb). -/
def blocksV (n : ℕ) : ℕ := if n = 0 then 1 else bitsV n / 32 + 1

/-- `big_uint::bit_trailing_zero_count`: counts zero bits from index 0
while `i < bits()` and bit `i` is clear (returns 0 for the value 0). -/
def tzV (n : ℕ) : ℕ :=
  ((List.range (bitsV n)).takeWhile (fun i => n / 2 ^ i % 2 = 0)).length

/-- The odd part `n / 2^(trailing zeros)`, used to state the gcd characterization. -/
def oddPart (n : ℕ) : ℕ := n / 2 ^ tzV n

/-! ### big_uint division (value level)

`operator/`, `operator%`, `div` and `division_newton_raphson` branch only on
`is_zero`, `is_one`, comparisons, `blocks()` and `bits()`, all of which are
determined by the value on normalized vectors, and all arithmetic they invoke
(`+ - * << >>` on big_uint) is exact on values, so they are modelled on `ℕ`. -/

/-- One Newton-Raphson iteration `x ← (x * (2B − divisor·x)) >> kbits`
with `B = 2^kbits`; the source guards the inner subtraction
(`term = (twoB > t) ? twoB - t : 0`), which is truncated subtraction on `ℕ`. -/
def nrStep (d B : ℕ) (x : ℕ) : ℕ := x * (2 * B - d * x) / B

/-- The `do { prev = x; x = step x; } while (x != prev)` loop of
`division_newton_raphson`, fuel-indexed.  The wrapper calls it with fuel
`B + 2`: by `nrStep_ge_self` the iterates are nondecreasing once below
`B / d` (which happens after the first step, `nrStep_le`), and they are
bounded by `B / d ≤ B`, so the fixpoint is reached within the fuel. -/
def nrFix (d B : ℕ) : ℕ → ℕ → ℕ
  | 0, x => x
  | fuel + 1, x =>
    let x1 := nrStep d B x
    if x1 = x then x1 else nrFix d B fuel x1

/-- The quotient-correction loop
`while (remainder >= divisor) { ++quotient; remainder -= divisor; }`,
fuel-indexed; the wrapper passes fuel `r + 1`, enough because the remainder
strictly decreases by `d ≥ 1` at each iteration. -/
def corrLoop (d : ℕ) : ℕ → ℕ → ℕ → ℕ × ℕ
  | 0, q, r => (q, r)
  | fuel + 1, q, r => if d ≤ r then corrLoop d fuel (q + 1) (r - d) else (q, r)

/-- `big_uint::division_newton_raphson(dividend, divisor, quotient, remainder)`.
Returns the `(quotient, remainder)` pair.  Mirrors the source:
early return for `dividend < divisor`; native 64-bit division when both
operands fit in two limbs; otherwise the fixed-point reciprocal iteration
with `kbits = dividend.bits() + 32`, initial estimate
`2^(kbits - divisor.bits())`, candidate quotient `(dividend * x) >> kbits`,
remainder by saturating subtraction, and the correction loop. -/
def division_newton_raphson (a d : ℕ) : ℕ × ℕ :=
  if a < d then (0, a)
  else if blocksV a ≤ 2 ∧ blocksV d ≤ 2 then (a / d, a % d)
  else
    let kbits := bitsV a + 32
    let B := 2 ^ kbits
    let x0 := if bitsV d < kbits then 2 ^ (kbits - bitsV d) else 1
    let x := nrFix d B (B + 2) x0
    let q0 := a * x / B
    let r0 := a - q0 * d
    corrLoop d (r0 + 1) q0 r0

/-- `big_uint::div(dividend, divisor, quotient, remainder)`: throws
`division_by_zero` on a zero divisor, then the special cases in source
order, the two-limb fast path, and `division_newton_raphson`. -/
def bu_div (a d : ℕ) : Except Unit (ℕ × ℕ) :=
  if d = 0 then .error ()
  else if a = 0 then .ok (0, a)
  else if d = 1 then .ok (a, 0)
  else if blocksV a ≤ 2 ∧ blocksV d ≤ 2 then .ok (a / d, a % d)
  else .ok (division_newton_raphson a d)

/-- `big_uint::operator/`: throws `division_by_zero` on a zero divisor,
otherwise special cases, the two-limb fast path, and the quotient of
`division_newton_raphson`. -/
def op_div (a d : ℕ) : Except Unit ℕ :=
  if d = 0 then .error ()
  else if a = 0 then .ok 0
  else if d = 1 then .ok a
  else if blocksV a ≤ 2 ∧ blocksV d ≤ 2 then .ok (a / d)
  else .ok (division_newton_raphson a d).1

/-- `big_uint::operator%`: returns the zero big_uint when either operand is
zero (it never throws, unlike `operator/`), otherwise the two-limb fast path
or the remainder of `division_newton_raphson`. -/
def op_mod (a d : ℕ) : ℕ :=
  if a = 0 ∨ d = 0 then 0
  else if blocksV a ≤ 2 ∧ blocksV d ≤ 2 then a % d
  else (division_newton_raphson a d).2

/-! ### big_uint gcd (value level) -/

/-- The core loop of `big_uint::gcd`: while `x ≠ 0`, strip the factors of two
from `y`, swap so that `x ≤ y`, then either `y %= x` (when the bit-length gap
exceeds 24) or `y -= x`.  `y %= x` goes through `operator%`/`op_mod`, which
silently yields `0` when `x = 0`.  Fuel-indexed; the wrapper passes
`x + y + 2`, enough because `x + y` strictly decreases in every iteration
except the final swap-and-exit one. -/
def gcdLoop : ℕ → ℕ → ℕ → ℕ
  | 0, _, y => y
  | fuel + 1, x, y =>
    if x = 0 then y
    else
      let y1 := y / 2 ^ tzV y
      let p := if x > y1 then (y1, x) else (x, y1)
      let y2 := if bitsV p.2 > bitsV p.1 + 24 then op_mod p.2 p.1 else p.2 - p.1
      gcdLoop fuel p.1 y2

/-- `big_uint::gcd(a, b)`: early returns for zero operands, removal of the
common power-of-two factor, removal of the remaining factors of two from `x`,
the mixed subtract/modulo loop, and restoration of the common factor. -/
def bu_gcd (a b : ℕ) : ℕ :=
  if a = 0 then b
  else if b = 0 then a
  else
    let s := min (tzV a) (tzV b)
    let x0 := a / 2 ^ s
    let y0 := b / 2 ^ s
    let x1 := x0 / 2 ^ tzV x0
    gcdLoop (x1 + y0 + 2) x1 y0 * 2 ^ s

/-! ### big_uint limb vectors (list level)

`std::vector<uint32_t> data_`, least-significant limb first. -/

/-- One limb's radix, `2^32`. -/
def limbW : ℕ := 2 ^ 32

/-- The value `Σ limb[i] · 2^(32·i)` of a limb vector. -/
def valueL : List ℕ → ℕ
  | [] => 0
  | x :: xs => x + limbW * valueL xs

/-- `big_uint::trim()`: pop trailing (most significant) zero limbs while the
vector has at least two limbs; an all-zero vector collapses to `[0]` (the
source's trim keeps one limb, and the karatsuba splitting code pushes a `0`
limb whenever a trimmed slice came out empty, which is the same thing). -/
def trimL (l : List ℕ) : List ℕ :=
  let r := (l.reverse.dropWhile (fun x => x = 0)).reverse
  if r = [] then [0] else r

/-- The class invariant of `big_uint`: at least one limb, every limb below
`2^32`, and no redundant leading zero limb (only `[0]` ends in a zero limb). -/
def NormalizedL (l : List ℕ) : Prop :=
  l ≠ [] ∧ (∀ x ∈ l, x < limbW) ∧ (l.getLast? = some 0 → l = [0])

instance (l : List ℕ) : Decidable (NormalizedL l) := by
  unfold NormalizedL; infer_instance

/-- `big_uint::is_zero()`: one limb equal to zero. -/
def bu_is_zero (l : List ℕ) : Bool := l = [0]

/-- `big_uint::is_one()`: one limb equal to one. -/
def bu_is_one (l : List ℕ) : Bool := l = [1]

/-- `big_uint::bits()`: `0` if the top limb is zero, otherwise
`(size - 1) * 32 + highest_bit_index(back)`. -/
def bu_bits (l : List ℕ) : ℕ :=
  if l.getLastD 0 = 0 then 0 else (l.length - 1) * 32 + bitsV (l.getLastD 0)

/-- `big_uint::bit_test(index)`: bit `index % 32` of limb `index / 32`
(out-of-range limbs read as zero; the source never indexes out of range). -/
def bu_bit_test (l : List ℕ) (i : ℕ) : Bool := l.getD (i / 32) 0 / 2 ^ (i % 32) % 2 = 1

/-- Limbwise ripple-carry addition (the loops of `operator+=`: the vector is
resized to `max(size, other.size) + 1`, limbs are added with a 64-bit carry,
and the final carry is written to the next limb). -/
def addCarry : List ℕ → ℕ → List ℕ
  | [], c => if c = 0 then [] else [c]
  | y :: ys, c => (y + c) % limbW :: addCarry ys ((y + c) / limbW)

def addAux : List ℕ → List ℕ → ℕ → List ℕ
  | [], ys, c => addCarry ys c
  | x :: xs, [], c => if c = 0 then x :: xs else (x + c) % limbW :: addAux xs [] ((x + c) / limbW)
  | x :: xs, y :: ys, c => (x + y + c) % limbW :: addAux xs ys ((x + y + c) / limbW)

/-- `big_uint::operator+=` (and `operator+`): ripple-carry addition followed
by `trim()`.  (The early return for a zero addend leaves the value unchanged.) -/
def bu_add (a b : List ℕ) : List ℕ :=
  if bu_is_zero b then a else trimL (addAux a b 0)

/-- Equal-length limb comparison: the most significant differing limb decides
(on little-endian lists the tail holds the more significant limbs, so the
current limbs only matter when the tails are equal). -/
def luLt : List ℕ → List ℕ → Bool
  | [], [] => false
  | [], _ :: _ => true
  | _ :: _, [] => false
  | x :: xs, y :: ys => if xs = ys then decide (x < y) else luLt xs ys

/-- `big_uint::operator<`: unequal limb counts settle the comparison
(normalized, so more limbs means larger); equal lengths compare limbs from
the most significant end down. -/
def bu_lt (a b : List ℕ) : Bool :=
  if a.length ≠ b.length then decide (a.length < b.length) else luLt a b

/-- Limbwise ripple-borrow subtraction (the loops of `operator-=`); the
minuend is known to be at least the subtrahend when this is called. -/
def subAux : List ℕ → List ℕ → ℕ → List ℕ
  | [], _, _ => []
  | x :: xs, [], br =>
    if br = 0 then x :: xs
    else (x + limbW - br) % limbW :: subAux xs [] (if br ≤ x then 0 else 1)
  | x :: xs, y :: ys, br =>
    (x + limbW - y - br) % limbW :: subAux xs ys (if y + br ≤ x then 0 else 1)

/-- `big_uint::operator-=` (and `operator-`): saturates at zero when
`*this < other`, otherwise ripple-borrow subtraction followed by `trim()`. -/
def bu_sub (a b : List ℕ) : List ℕ :=
  if bu_lt a b then [0] else trimL (subAux a b 0)

/-! ### big_uint multiplication (list level) -/

/-- Carry propagation through already-written result limbs (the tail of the
inner loop of `multiply_default`, which keeps running while `carry > 0`).
If the carry outlives the result vector the limb is appended; in the C++
that write would be out of bounds, but the correctness proof shows the case
never arises for the vector sizes `multiply_default` allocates. -/
def carryProp : ℕ → List ℕ → List ℕ
  | c, [] => if c = 0 then [] else [c]
  | c, r :: rs => if c = 0 then r :: rs else (r + c) % limbW :: carryProp ((r + c) / limbW) rs

/-- One row of the schoolbook multiplication: add `ai * b` into the result
limbs starting at the current offset, with 64-bit partial products
`product = a[i]*b[j] + result[i+j] + carry` split into a limb and a carry. -/
def rowAdd (ai : ℕ) : List ℕ → List ℕ → ℕ → List ℕ
  | [], res, c => carryProp c res
  | y :: ys, res, c =>
    match res with
    | [] => (ai * y + c) % limbW :: rowAdd ai ys [] ((ai * y + c) / limbW)
    | r :: rs => (ai * y + r + c) % limbW :: rowAdd ai ys rs ((ai * y + r + c) / limbW)

/-- The outer loop of `multiply_default`: row `i` (skipped when `a[i] = 0`)
adds `a[i] * b` into the result at offset `i`; limbs below the offset are
final and are peeled off as the recursion advances. -/
def mulRows : List ℕ → List ℕ → List ℕ → List ℕ
  | [], _, res => res
  | x :: xs, b, res =>
    match res with
    | [] => []
    | r :: rs =>
      if x = 0 then r :: mulRows xs b rs
      else
        match rowAdd x b (r :: rs) 0 with
        | [] => []
        | r1 :: rs1 => r1 :: mulRows xs b rs1

/-- `big_uint::multiply_default(a, b)`: the zero/one special cases, then the
schoolbook algorithm into a fresh vector of `a.size + b.size` zero limbs,
followed by `trim()`. -/
def multiply_default (a b : List ℕ) : List ℕ :=
  if bu_is_zero a || bu_is_zero b then [0]
  else if bu_is_one a then b
  else if bu_is_one b then a
  else trimL (mulRows a b (List.replicate (a.length + b.length) 0))

/-- `big_uint::multiply_karatsuba(a, b)` with the recursive multiplications
(`z2 *= …` etc., which go through `operator*=`) abstracted as `recMul`:
the zero/one special cases; fallback to `multiply_default` for
`max(a.blocks, b.blocks) ≤ 64`; split at `half = (n+1)/2` limbs into trimmed
low/high parts (an empty part becomes the single limb 0); the three
sub-products `z2 = high·high`, `z0 = low·low`,
`z1 = (a_low+a_high)·(b_low+b_high)`; `z1 -= z0; z1 -= z2` (saturating
big_uint subtraction); and recombination
`z0 + (z1 << 32·half) + (z2 << 64·half)` where the shifts are performed by
inserting zero limbs in front. -/
def karatsubaStep (recMul : List ℕ → List ℕ → List ℕ) (a b : List ℕ) : List ℕ :=
  if bu_is_zero a || bu_is_zero b then [0]
  else if bu_is_one a then b
  else if bu_is_one b then a
  else
    let n := max a.length b.length
    if n ≤ 64 then multiply_default a b
    else
      let half := (n + 1) / 2
      let aLow := trimL (a.take half)
      let aHigh := if half < a.length then trimL (a.drop half) else [0]
      let bLow := trimL (b.take half)
      let bHigh := if half < b.length then trimL (b.drop half) else [0]
      let z2 := recMul aHigh bHigh
      let z0 := recMul aLow bLow
      let z1 := recMul (bu_add aLow aHigh) (bu_add bLow bHigh)
      let z1s := bu_sub (bu_sub z1 z0) z2
      let r1 := if bu_is_zero z1s then z0 else bu_add z0 (List.replicate half 0 ++ z1s)
      let r2 := if bu_is_zero z2 then r1 else bu_add r1 (List.replicate (2 * half) 0 ++ z2)
      trimL r2

/-- `big_uint::operator*=`: the zero/one special cases, then dispatch on
`a.blocks + b.blocks > 128` between `multiply_karatsuba` and
`multiply_default`.  Fuel-indexed because karatsuba recurses back into
`operator*=`; the sub-products are strictly smaller in total limb count, so
the wrapper fuel `a.length + b.length + 1` suffices. -/
def mulAuxL : ℕ → List ℕ → List ℕ → List ℕ
  | 0, _, _ => [0]
  | fuel + 1, a, b =>
    if bu_is_zero b || bu_is_zero a then [0]
    else if bu_is_one b then a
    else if bu_is_one a then b
    else if 128 < a.length + b.length then karatsubaStep (mulAuxL fuel) a b
    else multiply_default a b

/-- `big_uint::operator*` (via `operator*=`). -/
def bu_mul (a b : List ℕ) : List ℕ := mulAuxL (a.length + b.length + 1) a b

/-- `big_uint::multiply_karatsuba` as an entry point of its own, its inner
multiplications dispatching through `operator*=`. -/
def multiply_karatsuba (a b : List ℕ) : List ℕ :=
  karatsubaStep (mulAuxL (a.length + b.length)) a b

/-- The `big_uint(uint64_t)` constructor: the low 32 bits, and a second limb
when the value exceeds `UINT32_MAX`. -/
def limbs64 (v : ℕ) : List ℕ :=
  if 2 ^ 32 - 1 < v then [v % limbW, v / limbW % limbW] else [v % limbW]

/-! ### base-N string conversion -/

/-- The `chars_base` lookup table of `from_str`: `'0'..'9' → 0..9`,
`'a'..'z' → 10..35`, `'A'..'Z' → 10..35`, everything else `99`. -/
def charToDigit (c : Char) : ℕ :=
  if 48 ≤ c.toNat ∧ c.toNat ≤ 57 then c.toNat - 48
  else if 97 ≤ c.toNat ∧ c.toNat ≤ 122 then c.toNat - 97 + 10
  else if 65 ≤ c.toNat ∧ c.toNat ≤ 90 then c.toNat - 65 + 10
  else 99

/-- The `base_chars` table of `to_string_template`: digits then lowercase
letters. -/
def digit_char (d : ℕ) : Char :=
  if d < 10 then Char.ofNat (48 + d) else Char.ofNat (97 + (d - 10))

/-- Digit-list accumulation `acc ← acc * b + d`, the common left-to-right
fold both of `from_str`'s chunks and of positional notation. -/
def foldChars (b : ℕ) (acc : ℕ) (cs : List Char) : ℕ :=
  cs.foldl (fun a c => a * b + charToDigit c) acc

/-- The `block_len` computation of `from_str`: starting from `n = base`,
`i = 1`, repeat `n *= base; i++` while `n ≤ UINT32_MAX / base`.  Fuel 40
covers every base ≥ 2 (at most 32 iterations). -/
def block_len_loop (b : ℕ) : ℕ → ℕ → ℕ → ℕ
  | 0, _, i => i
  | f + 1, n, i => if n ≤ (2 ^ 32 - 1) / b then block_len_loop b f (n * b) (i + 1) else i

/-- `from_str`'s `block_len`: the number of base-`b` digits whose place value
fits a 32-bit limb. -/
def block_len (b : ℕ) : ℕ := block_len_loop b 40 b 1

/-- `from_str`'s `base_power = b ^ block_len` (the source computes it with a
multiplication loop of `block_len` steps). -/
def base_power (b : ℕ) : ℕ := b ^ block_len b

/-- The inner chunk loop of `from_str`: consume up to `budget` valid digits,
returning the chunk value (`chunk_value * base + digit` accumulation), the
number of characters consumed, and the rest of the string. -/
def takeChunk (b : ℕ) : List Char → ℕ → ℕ → ℕ → ℕ × ℕ × List Char
  | cs, 0, acc, cnt => (acc, cnt, cs)
  | [], _ + 1, acc, cnt => (acc, cnt, [])
  | c :: cs, bud + 1, acc, cnt =>
    if 99 ≤ charToDigit c ∨ b ≤ charToDigit c then (acc, cnt, c :: cs)
    else takeChunk b cs bud (acc * b + charToDigit c) (cnt + 1)

/-- The outer loop of `from_str`: take a chunk; if it consumed characters,
`result *= (chars == block_len ? base_power : base^chars)` then
`result += chunk`; otherwise skip one character.  Fuel-indexed; each
iteration consumes at least one character, so `length + 1` fuel suffices. -/
def from_str_chunks (b : ℕ) : ℕ → List Char → List ℕ → List ℕ
  | 0, _, acc => acc
  | fuel + 1, cs, acc =>
    match cs with
    | [] => acc
    | _ :: _ =>
      let t := takeChunk b cs (block_len b) 0 0
      if 0 < t.2.1 then
        let pw := if t.2.1 = block_len b then base_power b else b ^ t.2.1
        from_str_chunks b fuel t.2.2 (bu_add (bu_mul acc (limbs64 pw)) [t.1])
      else from_str_chunks b fuel (cs.drop 1) acc

/-- `big_uint::from_str<base>(str)`: returns zero for a base outside 2..36 or
on any character invalid for the base (checked up front over the whole
string), otherwise the chunked left-to-right accumulation. -/
def from_str_core (b : ℕ) (cs : List Char) : List ℕ :=
  if b < 2 ∨ 36 < b then [0]
  else if cs.any (fun c => 99 ≤ charToDigit c || b ≤ charToDigit c) then [0]
  else from_str_chunks b (cs.length + 1) cs [0]

/-- The `big_uint(std::string_view, base, capacity)` constructor: throws
`std::invalid_argument` for a base outside 2..36, otherwise dispatches (via
the macro-generated switch) to `from_str<base>`. -/
def bu_from_string (s : String) (b : ℕ) : Except Unit (List ℕ) :=
  if b < 2 ∨ 36 < b then .error () else .ok (from_str_core b s.data)

/-- The digit-emission `do { push(base_chars[v % b]); v /= b; } while (v > 0)`
loop (least significant digit first; callers reverse the result).
Fuel-indexed; `v + 1` fuel always suffices. -/
def renderLSB (b : ℕ) : ℕ → ℕ → List Char
  | 0, _ => []
  | f + 1, v => digit_char (v % b) :: (if 0 < v / b then renderLSB b f (v / b) else [])

/-- The fixed-width chunk rendering of `to_string_template`: `m` digits
pushed least significant first and then reversed, so character `j` (from the
left) is digit `v / b^(m-1-j) % b`. -/
def renderPad (b m : ℕ) (v : ℕ) : List Char :=
  ((List.range m).map (fun j => digit_char (v / b ^ j % b))).reverse

/-- The in-place short division of `to_string_template`'s outer loop, on the
most-significant-first limb list: `dividend = remainder << 32 | limb`,
`limb = dividend / CB`, `remainder = dividend % CB`. -/
def divmodSmallMSB (CB : ℕ) : List ℕ → ℕ → List ℕ × ℕ
  | [], r => ([], r)
  | x :: xs, r =>
    let dv := r * limbW + x
    let t := divmodSmallMSB CB xs (dv % CB)
    (dv / CB :: t.1, t.2)

/-- One iteration of `to_string_template`'s outer loop: divide `temp` by `CB`
in place (most significant limb first) and `trim()`, yielding the new `temp`
and the remainder that is pushed onto `remainders`. -/
def superStep (CB : ℕ) (l : List ℕ) : List ℕ × ℕ :=
  let t := divmodSmallMSB CB l.reverse 0
  (trimL t.1.reverse, t.2)

/-- `to_string_template`'s `remainders` vector: base-`CB` super-digits of the
value, least significant first, collected `while (!temp.is_zero())`.
Fuel-indexed; the value strictly decreases, so `value + 1` fuel suffices. -/
def superdigits (CB : ℕ) : ℕ → List ℕ → List ℕ
  | 0, _ => []
  | fuel + 1, l =>
    if bu_is_zero l then []
    else
      let t := superStep CB l
      t.2 :: superdigits CB fuel t.1

/-- The `optimal_base` / `optimal_digits` computation of `to_string_template`:
starting from `b`, count 1, repeat `b *= base; count++` while `count < 9` and
`b ≤ UINT32_MAX / base`. -/
def opt_loop (b : ℕ) : ℕ → ℕ → ℕ → ℕ × ℕ
  | 0, bv, c => (bv, c)
  | f + 1, bv, c =>
    if c < 9 ∧ bv ≤ (2 ^ 32 - 1) / b then opt_loop b f (bv * b) (c + 1) else (bv, c)

/-- `optimal_base` for base `b`. -/
def opt_base (b : ℕ) : ℕ := (opt_loop b 16 b 1).1

/-- `optimal_digits` for base `b`. -/
def opt_digits (b : ℕ) : ℕ := (opt_loop b 16 b 1).2

/-- Rendering of the collected remainders, most significant chunk first: the
first chunk is rendered without leading zeros (and skipped entirely if zero),
subsequent chunks are zero-padded to the fixed width `m`. -/
def renderChunksMSB (b m : ℕ) : List ℕ → List Char
  | [] => []
  | v :: rest =>
    (if v ≠ 0 then (renderLSB b (v + 1) v).reverse else []) ++
    (rest.map (renderPad b m)).flatten

/-- The two-limb fast-path value `data_[0] | (data_[1] << 32)` (bitwise or of
disjoint ranges, i.e. addition, since limbs are below `2^32`). -/
def val64 (l : List ℕ) : ℕ := l.getD 0 0 + limbW * l.getD 1 0

/-- The general (neither 2, 10 nor 16) branch of
`big_uint::to_string_template<base>`: `"0"` for zero; direct 64-bit rendering
for vectors of at most two limbs; otherwise repeated division by
`optimal_base` collecting remainders, rendered most significant chunk first,
with the empty-result fallback `"0"`. -/
def to_string_general (b : ℕ) (l : List ℕ) : List Char :=
  if bu_is_zero l then ['0']
  else if l.length ≤ 2 then (renderLSB b (val64 l + 1) (val64 l)).reverse
  else
    let sds := superdigits (opt_base b) (valueL l + 1) l
    let chars := renderChunksMSB b (opt_digits b) sds.reverse
    if chars = [] then ['0'] else chars

/-- `big_uint::to_string_base_10`: the same algorithm specialized to chunk
base `10^9` (nine decimal digits per 32-bit chunk). -/
def to_string_base_10 (l : List ℕ) : List Char :=
  if bu_is_zero l then ['0']
  else if l.length ≤ 2 then (renderLSB 10 (val64 l + 1) (val64 l)).reverse
  else
    let sds := superdigits 1000000000 (valueL l + 1) l
    let chars := renderChunksMSB 10 9 sds.reverse
    if chars = [] then ['0'] else chars

/-- `big_uint::to_string_base_2`: a string of `bits() + 1` characters,
character `j` being bit `bits() - j`. -/
def to_string_base_2 (l : List ℕ) : List Char :=
  (List.range (bu_bits l + 1)).map (fun j => if bu_bit_test l (bu_bits l - j) then '1' else '0')

/-- The `is_show` head loop of `to_string_base_16`: walk the top limb's
nibbles from the most significant down, start emitting at the first position
where the right-shifted limb is nonzero. -/
def hexHeadGo (x : ℕ) : List ℕ → Bool → List Char
  | [], _ => []
  | j :: js, shown =>
    let sh := x / 2 ^ (4 * (7 - j))
    if shown then digit_char (sh % 16) :: hexHeadGo x js true
    else if 0 < sh then digit_char (sh % 16) :: hexHeadGo x js true
    else hexHeadGo x js false

/-- The head-limb rendering of `to_string_base_16` (note: for the zero value
this produces no characters at all, so `to_string(0, 16)` is the empty
string). -/
def hexHead (x : ℕ) : List Char := hexHeadGo x (List.range 8) false

/-- `big_uint::to_string_base_16`: the top limb without leading zero nibbles,
then every lower limb as eight nibbles, most significant limb first. -/
def to_string_base_16 (l : List ℕ) : List Char :=
  hexHead (l.getLastD 0) ++
    (l.dropLast.reverse.map
      (fun x => (List.range 8).map (fun j => digit_char (x / 2 ^ (4 * (7 - j)) % 16)))).flatten

/-- `big_uint::to_string_template<base>`: the specialized fast paths for
bases 2, 10 and 16, and the general chunked algorithm otherwise. -/
def to_string_template (b : ℕ) (l : List ℕ) : List Char :=
  if b = 2 then to_string_base_2 l
  else if b = 10 then to_string_base_10 l
  else if b = 16 then to_string_base_16 l
  else to_string_general b l

/-- `big_uint::to_string(base)`: throws `invalid_argument` for a base outside
2..36, otherwise dispatches (macro-generated switch) to
`to_string_template<base>`. -/
def to_string (l : List ℕ) (b : ℕ) : Except Unit String :=
  if b < 2 ∨ 36 < b then .error () else .ok ⟨to_string_template b l⟩

/-- Base-`CB` chunks of a natural number, least significant first (the
mathematical description of `superdigits`; empty for zero). -/
def natChunks (CB : ℕ) : ℕ → ℕ → List ℕ
  | 0, _ => []
  | f + 1, v => if v = 0 then [] else v % CB :: natChunks CB f (v / CB)

/-! ### fraction layer

`fraction` holds two big_uint magnitudes, a sign flag and a precision bound;
all four fields are value-determined, so the layer is modelled on `ℕ`. -/

/-- The state of a `fraction`: numerator and denominator magnitudes, sign
flag `is_negative_`, and precision bound `max_bits_`. -/
structure Frac where
  num : ℕ
  den : ℕ
  neg : Bool
  maxBits : ℕ
deriving DecidableEq, Repr

/-- `fraction::simplify()`: early return when numerator or denominator is 1;
`division_by_zero` when the denominator is 0; canonicalize a zero numerator
to `(0, 1, sign false)`; collapse `num = den` to `(1, 1)`; otherwise
right-shift both terms when the smaller one's bit index exceeds `max_bits_`,
and divide both by their gcd when it exceeds 1 (`numerator_ / gcd` goes
through `operator/`, which on a nonzero divisor computes the exact quotient,
lemma `op_div_ok`). -/
def simplifyE (f : Frac) : Except Unit Frac :=
  if f.num = 1 ∨ f.den = 1 then .ok f
  else if f.den = 0 then .error ()
  else if f.num = 0 then .ok { f with den := 1, neg := false }
  else if f.num = f.den then .ok { f with num := 1, den := 1 }
  else
    let nb := bitsV f.num
    let db := bitsV f.den
    let sh := if nb < db then (if f.maxBits < nb then nb - f.maxBits else 0)
              else (if f.maxBits < db then db - f.maxBits else 0)
    let n2 := f.num / 2 ^ sh
    let d2 := f.den / 2 ^ sh
    let g := bu_gcd n2 d2
    if 1 < g then .ok { f with num := n2 / g, den := d2 / g }
    else .ok { f with num := n2, den := d2 }

/-- The `fraction(const big_uint&, const big_uint&, max_bits)` constructor:
sign false, then `simplify()`. -/
def mkFracNN (n d mb : ℕ) : Except Unit Frac := simplifyE ⟨n, d, false, mb⟩

/-- The `fraction(T1, T2, max_bits)` integer constructor: magnitudes are the
absolute values, the sign is `(numerator < 0) ^ (denominator < 0)`, then
`simplify()`. -/
def mkFracII (n d : ℤ) (mb : ℕ) : Except Unit Frac :=
  simplifyE ⟨n.natAbs, d.natAbs, xor (decide (n < 0)) (decide (d < 0)), mb⟩

/-- The same-sign branch of `operator+=`:
`(a·d' + c·b') / (b·d')` with the shared sign kept, then `simplify()`. -/
def fracSameSignAdd (a b : Frac) : Except Unit Frac :=
  simplifyE { num := a.num * b.den + b.num * a.den, den := a.den * b.den,
              neg := a.neg, maxBits := a.maxBits }

/-- The same-sign branch of `operator-=`: cross products `cross1, cross2`;
if `cross1 >= cross2` the magnitude is `cross1 - cross2` with the sign kept,
otherwise `cross2 - cross1` with the sign flipped; then `simplify()`. -/
def fracSameSignSub (a b : Frac) : Except Unit Frac :=
  let c1 := a.num * b.den
  let c2 := b.num * a.den
  if c2 ≤ c1 then
    simplifyE { num := c1 - c2, den := a.den * b.den, neg := a.neg, maxBits := a.maxBits }
  else
    simplifyE { num := c2 - c1, den := a.den * b.den, neg := !a.neg, maxBits := a.maxBits }

/-- `fraction::operator+=`: `max_bits_` becomes the maximum of the bounds;
for different signs the sign is first set to the addend's, the same-sign
subtraction runs, and the resulting sign is flipped at the end; equal signs
add directly. -/
def fracAdd (a b : Frac) : Except Unit Frac :=
  let a1 : Frac := { a with maxBits := max a.maxBits b.maxBits }
  if a1.neg ≠ b.neg then
    (fracSameSignSub { a1 with neg := b.neg } b).map (fun r => { r with neg := !r.neg })
  else fracSameSignAdd a1 b

/-- `fraction::operator-=`: the mirror image of `operator+=`. -/
def fracSub (a b : Frac) : Except Unit Frac :=
  let a1 : Frac := { a with maxBits := max a.maxBits b.maxBits }
  if a1.neg ≠ b.neg then
    (fracSameSignAdd { a1 with neg := b.neg } b).map (fun r => { r with neg := !r.neg })
  else fracSameSignSub a1 b

/-- `fraction::operator*=`: xor of the signs, product of numerators and of
denominators, then `simplify()`. -/
def fracMul (a b : Frac) : Except Unit Frac :=
  simplifyE { num := a.num * b.num, den := a.den * b.den,
              neg := xor a.neg b.neg, maxBits := max a.maxBits b.maxBits }

/-- `fraction::operator/=`: xor of the signs, cross products, then
`simplify()`. -/
def fracDiv (a b : Frac) : Except Unit Frac :=
  simplifyE { num := a.num * b.den, den := a.den * b.num,
              neg := xor a.neg b.neg, maxBits := max a.maxBits b.maxBits }

/-- `fraction::operator<`: both non-negative compares
`num·other.den < other.num·den`; non-negative versus negative is false;
negative versus non-negative is true; both negative compares with `>`. -/
def fracLt (a b : Frac) : Bool :=
  if !a.neg && !b.neg then decide (a.num * b.den < b.num * a.den)
  else if !a.neg && b.neg then false
  else if a.neg && !b.neg then true
  else if a.neg && b.neg then decide (b.num * a.den < a.num * b.den)
  else false

/-- `fraction::operator<=` as written in the source: `return !(*this < other);`
(the very same expression as `operator>=`). -/
def fracLe (a b : Frac) : Bool := !(fracLt a b)

/-- `fraction::operator>=`: `return !(*this < other);`. -/
def fracGe (a b : Frac) : Bool := !(fracLt a b)

/-- The exact signed rational value represented by a fraction state. -/
def fracVal (f : Frac) : ℚ := (if f.neg then -1 else 1) * (f.num : ℚ) / (f.den : ℚ)

/-- The character-classification pass of the `fraction(std::string_view)`
constructor: record the indices of the first `e`/`E`, the first `.`, and the
first two `+`/`-`; a third sign, a second dot, a second exponent marker, or
any character outside `0-9 + - . e E` throws `invalid_argument`. -/
def scanChars : List Char → ℕ → Option ℕ × Option ℕ × Option ℕ × Option ℕ →
    Except Unit (Option ℕ × Option ℕ × Option ℕ × Option ℕ)
  | [], _, st => .ok st
  | c :: cs, i, (e, dot, s0, s1) =>
    if c = '+' ∨ c = '-' then
      match s0, s1 with
      | none, _ => scanChars cs (i + 1) (e, dot, some i, s1)
      | some _, none => scanChars cs (i + 1) (e, dot, s0, some i)
      | some _, some _ => .error ()
    else if c = '.' then
      match dot with
      | none => scanChars cs (i + 1) (e, some i, s0, s1)
      | some _ => .error ()
    else if '0' ≤ c ∧ c ≤ '9' then scanChars cs (i + 1) (e, dot, s0, s1)
    else if c = 'e' ∨ c = 'E' then
      match e with
      | none => scanChars cs (i + 1) (some i, dot, s0, s1)
      | some _ => .error ()
    else .error ()

/-- The `fraction(std::string_view, max_bits)` constructor.  After the scan:
sign from a leading `+`/`-`; in the scientific-notation branch the exponent
must exist and consist of digits (after an optional sign); the mantissa
digits around the dot are concatenated and parsed by the permissive
`big_uint(string)` decimal parser; the denominator is `10^(fraction digits)`;
a positive exponent multiplies the numerator and a negative one the
denominator by `10^|exponent|`; finally `simplify()`.
(`std::stoll`'s overflow exception for exponents beyond `int64` is not
modelled; no claim involves such exponents.) -/
def parseFraction (s : String) (mb : ℕ) : Except Unit Frac :=
  let cs := s.data
  if cs.length = 0 then .error ()
  else
    match scanChars cs 0 (none, none, none, none) with
    | .error _ => .error ()
    | .ok (e, dot, s0, _) =>
      let neg := s0 = some 0 && cs.getD 0 ' ' == '-'
      let start := if s0 = some 0 then 1 else 0
      match e with
      | some ei =>
        if cs.length ≤ ei + 1 then .error ()
        else
          let esc := cs.getD (ei + 1) ' '
          let hasES := esc == '+' || esc == '-'
          let expStart := ei + 1 + (if hasES then 1 else 0)
          if cs.length ≤ expStart then .error ()
          else if (cs.drop expStart).any (fun c => !('0' ≤ c ∧ c ≤ '9')) then .error ()
          else
            let intPart := match dot with
              | some di => (cs.drop start).take (di - start)
              | none => (cs.drop start).take (ei - start)
            let fracPart := match dot with
              | some di => (cs.drop (di + 1)).take (ei - di - 1)
              | none => []
            let expVal := foldChars 10 0 (cs.drop expStart)
            let expNeg := hasES && esc == '-'
            let numberStr := if intPart ++ fracPart = [] then ['0'] else intPart ++ fracPart
            let num0 := valueL (from_str_core 10 numberStr)
            let den0 := if fracPart = [] then 1 else 10 ^ fracPart.length
            let num1 := if ¬expNeg ∧ 0 < expVal then num0 * 10 ^ expVal else num0
            let den1 := if expNeg ∧ 0 < expVal then den0 * 10 ^ expVal else den0
            simplifyE ⟨num1, den1, neg, mb⟩
      | none =>
        let intPart := match dot with
          | some di => (cs.drop start).take (di - start)
          | none => cs.drop start
        let fracPart := match dot with
          | some di => cs.drop (di + 1)
          | none => []
        let numberStr := if intPart ++ fracPart = [] then ['0'] else intPart ++ fracPart
        let num0 := valueL (from_str_core 10 numberStr)
        let den0 := if fracPart = [] then 1 else 10 ^ fracPart.length
        simplifyE ⟨num0, den0, neg, mb⟩

/-! ## Theorems -/

/-! ### bit-length characterization -/

theorem log2F_spec : ∀ fuel n : ℕ, n ≤ fuel → n ≠ 0 →
    2 ^ log2F fuel n ≤ n ∧ n < 2 ^ (log2F fuel n + 1) := by
  intro fuel
  induction fuel with
  | zero => intro n hn h0; omega
  | succ f ih =>
    intro n hn h0
    rw [log2F]
    by_cases h1 : n ≤ 1
    · have : n = 1 := by omega
      simp [this]
    · have h2 : 2 ≤ n := by omega
      have hf : n / 2 ≤ f := by omega
      have hnz : n / 2 ≠ 0 := by omega
      obtain ⟨hl, hr⟩ := ih (n / 2) hf hnz
      simp only [if_neg h1]
      constructor
      · calc 2 ^ (log2F f (n / 2) + 1) = 2 ^ log2F f (n / 2) * 2 := by ring
          _ ≤ n / 2 * 2 := by omega
          _ ≤ n := by omega
      · calc n < (n / 2 + 1) * 2 := by omega
          _ ≤ 2 ^ (log2F f (n / 2) + 1) * 2 := by
              have : n / 2 + 1 ≤ 2 ^ (log2F f (n / 2) + 1) := hr
              omega
          _ = 2 ^ (log2F f (n / 2) + 1 + 1) := by ring

theorem bitsV_spec (n : ℕ) (h : n ≠ 0) : 2 ^ bitsV n ≤ n ∧ n < 2 ^ (bitsV n + 1) :=
  log2F_spec n n le_rfl h

theorem bitsV_eq_log (n : ℕ) : bitsV n = Nat.log 2 n := by
  rcases eq_or_ne n 0 with rfl | h
  · simp [bitsV, log2F]
  · exact (Nat.log_eq_of_pow_le_of_lt_pow (bitsV_spec n h).1 (bitsV_spec n h).2).symm

theorem bitsV_eq_log2 (n : ℕ) : bitsV n = Nat.log2 n := by
  rw [bitsV_eq_log, Nat.log2_eq_log_two]

theorem bitsV_mono {a b : ℕ} (h : a ≤ b) : bitsV a ≤ bitsV b := by
  rw [bitsV_eq_log, bitsV_eq_log]; exact Nat.log_mono_right h

theorem le_of_bitsV_lt {a b : ℕ} (h : bitsV a < bitsV b) : a < b := by
  by_contra hc
  exact absurd (bitsV_mono (by omega : b ≤ a)) (by omega)

theorem bitsV_lt_iff (n k : ℕ) (h : n ≠ 0) : bitsV n < k ↔ n < 2 ^ k := by
  obtain ⟨hl, hr⟩ := bitsV_spec n h
  constructor
  · intro hk
    calc n < 2 ^ (bitsV n + 1) := hr
      _ ≤ 2 ^ k := Nat.pow_le_pow_right (by omega) (by omega)
  · intro hk
    by_contra hc
    have : 2 ^ k ≤ 2 ^ bitsV n := Nat.pow_le_pow_right (by omega) (by omega)
    omega

theorem blocksV_le_two_iff (n : ℕ) : blocksV n ≤ 2 ↔ n < 2 ^ 64 := by
  rcases eq_or_ne n 0 with rfl | h
  · simp [blocksV]
  · unfold blocksV
    rw [if_neg h]
    have := bitsV_lt_iff n 64 h
    omega

/-! ### the division invariant (claim C2 support) -/

theorem nrStep_le (d B x : ℕ) (hd : 0 < d) (hB : 0 < B) : nrStep d B x ≤ B / d := by
  unfold nrStep
  have key : d * x * (2 * B - d * x) ≤ B * B := by
    rcases le_or_lt (2 * B) (d * x) with h | h
    · simp [Nat.sub_eq_zero_of_le h]
    · set u := d * x with hu
      zify [le_of_lt h]
      nlinarith [sq_nonneg ((B : ℤ) - u)]
  have h1 : x * (2 * B - d * x) ≤ B * B / d := by
    rw [Nat.le_div_iff_mul_le hd]
    calc x * (2 * B - d * x) * d = d * x * (2 * B - d * x) := by ring
      _ ≤ B * B := key
  calc x * (2 * B - d * x) / B ≤ B * B / d / B := Nat.div_le_div_right h1
    _ = B * B / (d * B) := by rw [Nat.div_div_eq_div_mul]
    _ = B / d := by rw [Nat.mul_comm d B, ← Nat.div_div_eq_div_mul, Nat.mul_div_cancel_left _ hB]

theorem nrFix_le (d B : ℕ) (hd : 0 < d) (hB : 0 < B) :
    ∀ fuel x, x ≤ B / d → nrFix d B fuel x ≤ B / d := by
  intro fuel
  induction fuel with
  | zero => intro x hx; exact hx
  | succ f ih =>
    intro x hx
    simp only [nrFix]
    split
    · exact nrStep_le d B x hd hB
    · exact ih _ (nrStep_le d B x hd hB)

theorem nrFix_le_entry (d B : ℕ) (hd : 0 < d) (hB : 0 < B) (fuel x : ℕ) :
    nrFix d B (fuel + 1) x ≤ B / d := by
  simp only [nrFix]
  split
  · exact nrStep_le d B x hd hB
  · exact nrFix_le d B hd hB _ _ (nrStep_le d B x hd hB)

theorem corrLoop_spec (d : ℕ) (hd : 0 < d) :
    ∀ fuel q r, r < fuel → corrLoop d fuel q r = (q + r / d, r % d) := by
  intro fuel
  induction fuel with
  | zero => omega
  | succ f ih =>
    intro q r hr
    rw [corrLoop]
    split
    · rename_i h
      rw [ih (q + 1) (r - d) (by omega)]
      have h1 : r / d = (r - d) / d + 1 := by
        conv_lhs => rw [show r = (r - d) + d by omega]
        rw [Nat.add_div_right _ hd]
      have h2 : (r - d) % d = r % d := by
        conv_rhs => rw [show r = r - d + d by omega]
        rw [Nat.add_mod_right]
      rw [h2, Prod.mk.injEq]
      omega
    · rename_i h
      rw [Nat.div_eq_of_lt (by omega), Nat.mod_eq_of_lt (by omega)]
      simp

theorem division_newton_raphson_spec (a d : ℕ) (hd : 0 < d) :
    division_newton_raphson a d = (a / d, a % d) := by
  unfold division_newton_raphson
  split
  · rename_i h
    rw [Nat.div_eq_of_lt h, Nat.mod_eq_of_lt h]
  split
  · rfl
  rename_i hge hbig
  simp only
  set kbits := bitsV a + 32 with hk
  set B := (2 : ℕ) ^ kbits with hBdef
  have hB : 0 < B := Nat.pos_pow_of_pos _ (by omega)
  set x0 := if bitsV d < kbits then 2 ^ (kbits - bitsV d) else 1 with hx0
  have hx : nrFix d B (B + 2) x0 ≤ B / d := nrFix_le_entry d B hd hB (B + 1) x0
  set x := nrFix d B (B + 2) x0 with hxdef
  set q0 := a * x / B with hq0def
  have hq0 : q0 ≤ a / d := by
    have h1 : a * x ≤ a * (B / d) := Nat.mul_le_mul_left a hx
    have h2 : a * (B / d) ≤ a * B / d := Nat.mul_div_le_mul_div_assoc a B d
    have h3 : a * B / d < (a / d + 1) * B := by
      rw [Nat.div_lt_iff_lt_mul hd]
      have ha : a < (a / d + 1) * d := by
        have := Nat.div_add_mod a d
        have := Nat.mod_lt a hd
        nlinarith
      calc a * B < ((a / d + 1) * d) * B := by
            exact Nat.mul_lt_mul_of_lt_of_le ha le_rfl hB
        _ = (a / d + 1) * B * d := by ring
    have h4 : a * x / B < a / d + 1 := by
      rw [Nat.div_lt_iff_lt_mul hB]
      calc a * x ≤ a * B / d := le_trans h1 h2
        _ < (a / d + 1) * B := h3
    omega
  have hq0d : q0 * d ≤ a := by
    calc q0 * d ≤ (a / d) * d := Nat.mul_le_mul_right d hq0
      _ ≤ a := Nat.div_mul_le_self a d
  set r0 := a - q0 * d with hr0def
  rw [corrLoop_spec d hd (r0 + 1) q0 r0 (Nat.lt_succ_self r0)]
  have hkey : r0 % d + d * (q0 + r0 / d) = a ∧ r0 % d < d := by
    constructor
    · have hdm : d * (r0 / d) + r0 % d = r0 := Nat.div_add_mod r0 d
      have hexp : d * (q0 + r0 / d) = d * q0 + d * (r0 / d) := by ring
      have hcomm : d * q0 = q0 * d := by ring
      omega
    · exact Nat.mod_lt _ hd
  obtain ⟨he1, he2⟩ := (Nat.div_mod_unique hd).mpr hkey
  rw [Prod.mk.injEq]
  exact ⟨he1.symm, he2.symm⟩

theorem bu_div_ok (a d : ℕ) (hd : 0 < d) : bu_div a d = .ok (a / d, a % d) := by
  unfold bu_div
  rw [if_neg (by omega)]
  split
  · rename_i h; subst h; simp
  split
  · rename_i h; subst h; simp [Nat.mod_one]
  split
  · rfl
  · rw [division_newton_raphson_spec a d hd]

theorem op_div_ok (a d : ℕ) (hd : 0 < d) : op_div a d = .ok (a / d) := by
  unfold op_div
  rw [if_neg (by omega)]
  split
  · rename_i h; subst h; simp
  split
  · rename_i h; subst h; simp
  split
  · rfl
  · rw [division_newton_raphson_spec a d hd]

theorem op_mod_eq (a d : ℕ) (hd : 0 < d) : op_mod a d = a % d := by
  unfold op_mod
  rcases eq_or_ne a 0 with rfl | ha
  · simp
  · rw [if_neg (by omega)]
    split
    · rfl
    · rw [division_newton_raphson_spec a d hd]

/-! ### limb vector basics -/

theorem limbW_pos : 0 < limbW := by norm_num [limbW]

theorem limbW_eq : limbW = 4294967296 := by norm_num [limbW]

theorem valueL_cons (x : ℕ) (xs : List ℕ) : valueL (x :: xs) = x + limbW * valueL xs := rfl

theorem valueL_append (a b : List ℕ) :
    valueL (a ++ b) = valueL a + limbW ^ a.length * valueL b := by
  induction a with
  | nil => simp [valueL]
  | cons x xs ih =>
    simp only [List.cons_append, valueL_cons, ih, List.length_cons]
    ring

theorem valueL_replicate_zero (k : ℕ) : valueL (List.replicate k 0) = 0 := by
  induction k with
  | zero => rfl
  | succ n ih => simp [List.replicate_succ, valueL_cons, ih]

theorem valueL_lt (l : List ℕ) (h : ∀ x ∈ l, x < limbW) : valueL l < limbW ^ l.length := by
  induction l with
  | nil => simp [valueL]
  | cons x xs ih =>
    have hx : x < limbW := h x (by simp)
    have hxs : valueL xs < limbW ^ xs.length := ih (fun y hy => h y (by simp [hy]))
    have hd : limbW * (valueL xs + 1) = limbW * valueL xs + limbW := by ring
    have hm : limbW * (valueL xs + 1) ≤ limbW * limbW ^ xs.length :=
      Nat.mul_le_mul_left _ (by omega)
    have hp : limbW * limbW ^ xs.length = limbW ^ (xs.length + 1) := by ring
    simp only [valueL_cons, List.length_cons]
    omega

theorem mem_dropWhile_mem {p : ℕ → Bool} : ∀ {l : List ℕ} {x : ℕ}, x ∈ l.dropWhile p → x ∈ l := by
  intro l
  induction l with
  | nil => intro x h; simp [List.dropWhile] at h
  | cons y ys ih =>
    intro x h
    cases hp : p y with
    | true =>
      simp only [List.dropWhile, hp] at h
      exact List.mem_cons_of_mem y (ih h)
    | false =>
      simp only [List.dropWhile, hp] at h
      exact h

theorem head_dropWhile_false {p : ℕ → Bool} :
    ∀ {l : List ℕ} {x : ℕ} {xs : List ℕ}, l.dropWhile p = x :: xs → p x = false := by
  intro l
  induction l with
  | nil => intro x xs h; simp [List.dropWhile] at h
  | cons y ys ih =>
    intro x xs h
    cases hp : p y with
    | true =>
      simp only [List.dropWhile, hp] at h
      exact ih h
    | false =>
      simp only [List.dropWhile, hp] at h
      cases h
      exact hp

theorem trimL_decomp (l : List ℕ) :
    l = (l.reverse.dropWhile (fun x => x = 0)).reverse ++
      List.replicate (l.reverse.takeWhile (fun x => x = 0)).length 0 := by
  conv_lhs => rw [← l.reverse_reverse,
    ← List.takeWhile_append_dropWhile (fun x => decide (x = 0)) l.reverse]
  rw [List.reverse_append]
  congr 1
  have h : l.reverse.takeWhile (fun x => decide (x = 0)) =
      List.replicate (l.reverse.takeWhile (fun x => decide (x = 0))).length 0 :=
    List.eq_replicate_of_mem (fun b hb => by simpa using List.mem_takeWhile_imp hb)
  rw [h, List.reverse_replicate, List.length_replicate]

theorem valueL_trimL (l : List ℕ) : valueL (trimL l) = valueL l := by
  unfold trimL
  simp only
  split
  · rename_i h
    conv_rhs => rw [trimL_decomp l]
    rw [h, List.nil_append, valueL_replicate_zero]
    simp [valueL]
  · conv_rhs => rw [trimL_decomp l]
    rw [valueL_append, valueL_replicate_zero]
    omega

theorem trimL_normalized (l : List ℕ) (hb : ∀ x ∈ l, x < limbW) : NormalizedL (trimL l) := by
  unfold trimL
  simp only
  split
  · refine ⟨by simp, ?_, by simp⟩
    intro x hx
    simp at hx
    simp [hx, limbW]
  · rename_i h
    refine ⟨h, ?_, ?_⟩
    · intro x hx
      exact hb x (List.mem_reverse.mp (mem_dropWhile_mem (List.mem_reverse.mp hx)))
    · intro hlast
      exfalso
      rcases hd : l.reverse.dropWhile (fun x => x = 0) with _ | ⟨x, xs⟩
      · exact h (by rw [hd]; rfl)
      · have hx0 : x = 0 := by
          have h2 : (x :: xs).reverse.getLast? = some 0 := by rw [← hd]; exact hlast
          rw [List.getLast?_reverse] at h2
          simpa using h2
        have := head_dropWhile_false hd
        simp [hx0] at this

theorem trimL_ne_nil (l : List ℕ) : trimL l ≠ [] := by
  unfold trimL
  simp only
  split
  · simp
  · assumption

theorem norm_getLast_ne {l : List ℕ} (h : NormalizedL l) (h0 : l ≠ [0]) :
    l.getLast h.1 ≠ 0 := by
  intro hz
  exact h0 (h.2.2 (by rw [List.getLast?_eq_getLast l h.1, hz]))

theorem norm_valueL_ge (l : List ℕ) (h : NormalizedL l) (h0 : l ≠ [0]) :
    limbW ^ (l.length - 1) ≤ valueL l := by
  have hne := h.1
  have hdecomp := List.dropLast_append_getLast hne
  have ht : l.getLast hne ≠ 0 := norm_getLast_ne h h0
  have hlen : l.dropLast.length = l.length - 1 := List.length_dropLast l
  have hv : valueL l = valueL l.dropLast + limbW ^ l.dropLast.length * valueL [l.getLast hne] := by
    conv_lhs => rw [← hdecomp]
    exact valueL_append _ _
  have hvt : valueL [l.getLast hne] = l.getLast hne := by simp [valueL]
  rw [hvt] at hv
  have h1 : 1 ≤ l.getLast hne := by omega
  have h2 : limbW ^ l.dropLast.length * 1 ≤ limbW ^ l.dropLast.length * l.getLast hne :=
    Nat.mul_le_mul_left _ h1
  rw [← hlen]
  omega

theorem norm_value_zero_iff (l : List ℕ) (h : NormalizedL l) : valueL l = 0 ↔ l = [0] := by
  constructor
  · intro hv
    by_contra h0
    have h1 := norm_valueL_ge l h h0
    have h2 : 0 < limbW ^ (l.length - 1) := pow_pos limbW_pos _
    omega
  · rintro rfl
    simp [valueL]

theorem norm_value_one_iff (l : List ℕ) (h : NormalizedL l) : valueL l = 1 ↔ l = [1] := by
  constructor
  · intro hv
    have h0 : l ≠ [0] := by
      intro h'
      rw [h'] at hv
      simp [valueL] at hv
    have h1 := norm_valueL_ge l h h0
    have hlen : l.length = 1 := by
      by_contra hl
      have hpos : 0 < l.length := List.length_pos.mpr h.1
      have h3 : limbW ^ 1 ≤ limbW ^ (l.length - 1) :=
        Nat.pow_le_pow_right limbW_pos (by omega)
      have h4 : limbW ^ 1 = limbW := pow_one _
      have hW := limbW_eq
      omega
    obtain ⟨a, rfl⟩ := List.length_eq_one.mp hlen
    have : a = 1 := by
      have : valueL [a] = a := by simp [valueL]
      omega
    rw [this]
  · rintro rfl
    simp [valueL]

theorem bounded_value_inj :
    ∀ (a b : List ℕ), (∀ x ∈ a, x < limbW) → (∀ x ∈ b, x < limbW) →
      a.length = b.length → valueL a = valueL b → a = b := by
  intro a
  induction a with
  | nil =>
    intro b _ _ hl _
    rcases b with _ | _
    · rfl
    · simp at hl
  | cons x xs ih =>
    intro b hba hbb hl hv
    rcases b with _ | ⟨y, ys⟩
    · simp at hl
    · have hx : x < limbW := hba x (by simp)
      have hy : y < limbW := hbb y (by simp)
      have hW := limbW_eq
      have h1 : x + limbW * valueL xs = y + limbW * valueL ys := hv
      have hxy : x = y ∧ valueL xs = valueL ys := by
        rw [hW] at h1 hx hy
        omega
      obtain ⟨rfl, hvv⟩ := hxy
      have : xs = ys :=
        ih ys (fun z hz => hba z (by simp [hz])) (fun z hz => hbb z (by simp [hz]))
          (by simpa using hl) hvv
      rw [this]

theorem bitsV_eq_of {k n : ℕ} (h1 : 2 ^ k ≤ n) (h2 : n < 2 ^ (k + 1)) : bitsV n = k := by
  rw [bitsV_eq_log]
  exact Nat.log_eq_of_pow_le_of_lt_pow h1 h2

theorem norm_bits_decomp (l : List ℕ) (h : NormalizedL l) (h0 : l ≠ [0]) :
    bitsV (valueL l) = (l.length - 1) * 32 + bitsV (l.getLast h.1) := by
  have hne := h.1
  have hdecomp := List.dropLast_append_getLast hne
  set t := l.getLast hne with htdef
  have ht0 : t ≠ 0 := norm_getLast_ne h h0
  have htW : t < limbW := h.2.1 t (List.getLast_mem hne)
  have hlen : l.dropLast.length = l.length - 1 := List.length_dropLast l
  have hv : valueL l = valueL l.dropLast + limbW ^ l.dropLast.length * t := by
    conv_lhs => rw [← hdecomp]
    rw [valueL_append]
    simp [valueL]
  have hlow : valueL l.dropLast < limbW ^ l.dropLast.length := by
    apply valueL_lt
    intro x hx
    exact h.2.1 x (by rw [← hdecomp]; exact List.mem_append_left _ hx)
  obtain ⟨hb1, hb2⟩ := bitsV_spec t ht0
  have hWpow : ∀ m : ℕ, limbW ^ m = 2 ^ (m * 32) := by
    intro m
    rw [show limbW = 2 ^ 32 from rfl, ← pow_mul, Nat.mul_comm]
  apply bitsV_eq_of
  · have e1 : 2 ^ ((l.length - 1) * 32 + bitsV t) = limbW ^ l.dropLast.length * 2 ^ bitsV t := by
      rw [pow_add, hWpow, hlen]
    have e2 : limbW ^ l.dropLast.length * 2 ^ bitsV t ≤ limbW ^ l.dropLast.length * t :=
      Nat.mul_le_mul_left _ hb1
    omega
  · have e3 : limbW ^ l.dropLast.length * (t + 1) ≤
        limbW ^ l.dropLast.length * 2 ^ (bitsV t + 1) :=
      Nat.mul_le_mul_left _ (by omega)
    have e4 : 2 ^ ((l.length - 1) * 32 + bitsV t + 1) =
        limbW ^ l.dropLast.length * 2 ^ (bitsV t + 1) := by
      rw [hWpow, hlen, ← pow_add, Nat.add_assoc]
    have e5 : limbW ^ l.dropLast.length * (t + 1) =
        limbW ^ l.dropLast.length * t + limbW ^ l.dropLast.length := by ring
    omega

theorem bu_bits_eq (l : List ℕ) (h : NormalizedL l) : bu_bits l = bitsV (valueL l) := by
  rcases eq_or_ne l [0] with rfl | h0
  · simp [bu_bits, valueL, bitsV, log2F]
  · have hne := h.1
    have hdecomp := List.dropLast_append_getLast hne
    have hlast : l.getLastD 0 = l.getLast hne := by
      conv_lhs => rw [← hdecomp]
      exact List.getLastD_concat _ _ _
    have ht0 : l.getLast hne ≠ 0 := norm_getLast_ne h h0
    rw [norm_bits_decomp l h h0]
    unfold bu_bits
    rw [hlast, if_neg ht0]

theorem norm_length_eq (l : List ℕ) (h : NormalizedL l) : l.length = blocksV (valueL l) := by
  rcases eq_or_ne l [0] with rfl | h0
  · simp [valueL, blocksV]
  · have hv0 : valueL l ≠ 0 := fun hv => h0 ((norm_value_zero_iff l h).mp hv)
    have ht0 : l.getLast h.1 ≠ 0 := norm_getLast_ne h h0
    have htW : l.getLast h.1 < limbW := h.2.1 _ (List.getLast_mem h.1)
    have hbt : bitsV (l.getLast h.1) < 32 := by
      rw [bitsV_lt_iff _ _ ht0]
      exact htW
    have hlp : 0 < l.length := List.length_pos.mpr h.1
    unfold blocksV
    rw [if_neg hv0, norm_bits_decomp l h h0]
    have e1 : ((l.length - 1) * 32 + bitsV (l.getLast h.1)) / 32
        = bitsV (l.getLast h.1) / 32 + (l.length - 1) := by
      rw [Nat.add_comm ((l.length - 1) * 32) _,
        Nat.add_mul_div_right _ _ (by omega : (0:ℕ) < 32)]
    have e2 : bitsV (l.getLast h.1) / 32 = 0 := Nat.div_eq_of_lt hbt
    omega

theorem valueL_inj {a b : List ℕ} (ha : NormalizedL a) (hb : NormalizedL b)
    (hv : valueL a = valueL b) : a = b := by
  apply bounded_value_inj a b ha.2.1 hb.2.1 _ hv
  rw [norm_length_eq a ha, norm_length_eq b hb, hv]

/-! ### addition, comparison, subtraction -/

theorem norm_single (x : ℕ) (h : x < limbW) : NormalizedL [x] := by
  refine ⟨by simp, ?_, ?_⟩
  · intro z hz
    simp at hz
    omega
  · intro hz
    simp at hz
    simp [hz]

theorem norm_zero_list : NormalizedL [0] := norm_single 0 limbW_pos

theorem addAux_nil_right : ∀ (a : List ℕ) (c : ℕ), valueL (addAux a [] c) = valueL a + c := by
  intro a
  induction a with
  | nil =>
    intro c
    rcases eq_or_ne c 0 with rfl | hc
    · simp [addAux, addCarry, valueL]
    · simp [addAux, addCarry, hc, valueL]
  | cons x xs ih =>
    intro c
    rcases eq_or_ne c 0 with rfl | hc
    · simp [addAux, valueL]
    · rw [addAux, if_neg hc, valueL_cons, ih]
      have hdm := Nat.div_add_mod (x + c) limbW
      have hd : limbW * (valueL xs + (x + c) / limbW) =
          limbW * valueL xs + limbW * ((x + c) / limbW) := by ring
      rw [valueL_cons]
      omega

theorem addCarry_value : ∀ (b : List ℕ) (c : ℕ), valueL (addCarry b c) = valueL b + c := by
  intro b
  induction b with
  | nil =>
    intro c
    rcases eq_or_ne c 0 with rfl | hc
    · simp [addCarry, valueL]
    · simp [addCarry, hc, valueL]
  | cons y ys ih =>
    intro c
    rw [addCarry, valueL_cons, ih]
    have hdm := Nat.div_add_mod (y + c) limbW
    have hd : limbW * (valueL ys + (y + c) / limbW) =
        limbW * valueL ys + limbW * ((y + c) / limbW) := by ring
    rw [valueL_cons]
    omega

theorem addCarry_bound : ∀ (b : List ℕ) (c : ℕ), (∀ x ∈ b, x < limbW) → c < limbW →
    ∀ z ∈ addCarry b c, z < limbW := by
  intro b
  induction b with
  | nil =>
    intro c _ hc z hz
    rcases eq_or_ne c 0 with rfl | h0
    · simp [addCarry] at hz
    · simp [addCarry, h0] at hz
      omega
  | cons y ys ihb =>
    intro c hbb hc z hz
    rw [addCarry] at hz
    rcases List.mem_cons.mp hz with rfl | hz2
    · exact Nat.mod_lt _ limbW_pos
    · have hy : y < limbW := hbb y (by simp)
      have hcar : (y + c) / limbW < limbW := by
        have hW := limbW_eq
        rw [hW] at hy hc ⊢
        omega
      exact ihb ((y + c) / limbW) (fun u hu => hbb u (by simp [hu])) hcar z hz2

theorem addCarry_length : ∀ (b : List ℕ) (c : ℕ), (addCarry b c).length ≤ b.length + 1 := by
  intro b
  induction b with
  | nil => intro c; rw [addCarry]; split <;> simp
  | cons y ys ih =>
    intro c
    rw [addCarry]
    simp only [List.length_cons]
    have := ih ((y + c) / limbW)
    omega

theorem addAux_nil_left : ∀ (b : List ℕ) (c : ℕ), valueL (addAux [] b c) = valueL b + c := by
  intro b c
  rw [addAux]
  exact addCarry_value b c

theorem addAux_value : ∀ (a b : List ℕ) (c : ℕ),
    valueL (addAux a b c) = valueL a + valueL b + c := by
  intro a
  induction a with
  | nil =>
    intro b c
    rw [addAux_nil_left]
    simp [valueL]
  | cons x xs ih =>
    intro b c
    rcases b with _ | ⟨y, ys⟩
    · rw [addAux_nil_right]
      simp [valueL]
    · rw [addAux, valueL_cons, ih]
      have hdm := Nat.div_add_mod (x + y + c) limbW
      have hd : limbW * (valueL xs + valueL ys + (x + y + c) / limbW) =
          limbW * valueL xs + limbW * valueL ys + limbW * ((x + y + c) / limbW) := by ring
      rw [valueL_cons, valueL_cons]
      omega

theorem addAux_bound : ∀ (a b : List ℕ) (c : ℕ),
    (∀ x ∈ a, x < limbW) → (∀ x ∈ b, x < limbW) → c < limbW →
    ∀ z ∈ addAux a b c, z < limbW := by
  intro a
  induction a with
  | nil =>
    intro b c _ hbb hc z hz
    rw [addAux] at hz
    exact addCarry_bound b c hbb hc z hz
  | cons x xs ih =>
    intro b c hba hbb hc z hz
    have hx : x < limbW := hba x (by simp)
    rcases b with _ | ⟨y, ys⟩
    · rw [addAux] at hz
      rcases eq_or_ne c 0 with rfl | h0
      · rw [if_pos rfl] at hz
        exact hba z hz
      · rw [if_neg h0] at hz
        rcases List.mem_cons.mp hz with rfl | hz2
        · exact Nat.mod_lt _ limbW_pos
        · have hcar : (x + c) / limbW < limbW := by
            have hW := limbW_eq
            rw [hW] at hx hc ⊢
            omega
          exact ih [] ((x + c) / limbW) (fun u hu => hba u (by simp [hu])) (by simp) hcar z hz2
    · rw [addAux] at hz
      have hy : y < limbW := hbb y (by simp)
      rcases List.mem_cons.mp hz with rfl | hz2
      · exact Nat.mod_lt _ limbW_pos
      · have hcar : (x + y + c) / limbW < limbW := by
          have hW := limbW_eq
          rw [hW] at hx hy hc ⊢
          omega
        exact ih ys ((x + y + c) / limbW) (fun u hu => hba u (by simp [hu]))
          (fun u hu => hbb u (by simp [hu])) hcar z hz2

theorem bu_add_spec (a b : List ℕ) (ha : NormalizedL a) (hb : NormalizedL b) :
    valueL (bu_add a b) = valueL a + valueL b ∧ NormalizedL (bu_add a b) := by
  unfold bu_add
  by_cases hz : b = [0]
  · subst hz
    simp [bu_is_zero, valueL, ha]
  · rw [if_neg (by simpa [bu_is_zero] using hz)]
    constructor
    · rw [valueL_trimL, addAux_value]
      omega
    · exact trimL_normalized _ (addAux_bound a b 0 ha.2.1 hb.2.1 limbW_pos)


theorem luLt_iff : ∀ (a b : List ℕ), (∀ x ∈ a, x < limbW) → (∀ x ∈ b, x < limbW) →
    a.length = b.length → (luLt a b = true ↔ valueL a < valueL b) := by
  intro a
  induction a with
  | nil =>
    intro b _ _ hl
    rcases b with _ | _
    · simp [luLt]
    · simp at hl
  | cons x xs ih =>
    intro b hba hbb hl
    rcases b with _ | ⟨y, ys⟩
    · simp at hl
    · have hx : x < limbW := hba x (by simp)
      have hy : y < limbW := hbb y (by simp)
      have hl' : xs.length = ys.length := by simpa using hl
      rw [luLt]
      by_cases he : xs = ys
      · rw [if_pos he, he]
        simp only [valueL_cons, decide_eq_true_eq]
        omega
      · rw [if_neg he]
        have ihxy := ih ys (fun u hu => hba u (by simp [hu])) (fun u hu => hbb u (by simp [hu])) hl'
        have hne : valueL xs ≠ valueL ys := by
          intro heq
          exact he (bounded_value_inj xs ys (fun u hu => hba u (by simp [hu]))
            (fun u hu => hbb u (by simp [hu])) hl' heq)
        rcases lt_trichotomy (valueL xs) (valueL ys) with hc | hc | hc
        · have hm : limbW * (valueL xs + 1) ≤ limbW * valueL ys :=
            Nat.mul_le_mul_left _ (by omega)
          have hd : limbW * (valueL xs + 1) = limbW * valueL xs + limbW := by ring
          rw [ihxy]
          simp only [valueL_cons]
          omega
        · exact absurd hc hne
        · have hm : limbW * (valueL ys + 1) ≤ limbW * valueL xs :=
            Nat.mul_le_mul_left _ (by omega)
          have hd : limbW * (valueL ys + 1) = limbW * valueL ys + limbW := by ring
          rw [ihxy]
          simp only [valueL_cons]
          omega

theorem blocksV_mono {a b : ℕ} (h : a ≤ b) : blocksV a ≤ blocksV b := by
  unfold blocksV
  rcases eq_or_ne a 0 with rfl | ha
  · rw [if_pos rfl]
    split <;> omega
  · have hb : b ≠ 0 := by omega
    rw [if_neg ha, if_neg hb]
    have h1 := bitsV_mono h
    have h2 : bitsV a / 32 ≤ bitsV b / 32 := Nat.div_le_div_right h1
    omega

theorem bu_lt_iff (a b : List ℕ) (ha : NormalizedL a) (hb : NormalizedL b) :
    (bu_lt a b = true ↔ valueL a < valueL b) := by
  unfold bu_lt
  by_cases hl : a.length = b.length
  · rw [if_neg (by simpa using hl)]
    exact luLt_iff a b ha.2.1 hb.2.1 hl
  · rw [if_pos (by simpa using hl)]
    simp only [decide_eq_true_eq]
    constructor
    · intro hlt
      have hb0 : b ≠ [0] := by
        intro hb0
        rw [hb0] at hlt
        simp only [List.length_cons, List.length_nil] at hlt
        have := List.length_pos.mpr ha.1
        omega
      have h1 : valueL a < limbW ^ a.length := valueL_lt a ha.2.1
      have h2 : limbW ^ a.length ≤ limbW ^ (b.length - 1) :=
        Nat.pow_le_pow_right limbW_pos (by omega)
      have h3 := norm_valueL_ge b hb hb0
      omega
    · intro hv
      by_contra hc
      have hc' : b.length < a.length := by omega
      have ha0 : a ≠ [0] := by
        intro ha0
        rw [ha0] at hc'
        simp only [List.length_cons, List.length_nil] at hc'
        have := List.length_pos.mpr hb.1
        omega
      have h1 : valueL b < limbW ^ b.length := valueL_lt b hb.2.1
      have h2 : limbW ^ b.length ≤ limbW ^ (a.length - 1) :=
        Nat.pow_le_pow_right limbW_pos (by omega)
      have h3 := norm_valueL_ge a ha ha0
      omega

theorem subAux_nil_zero (a : List ℕ) : subAux a [] 0 = a := by
  cases a <;> simp [subAux]

theorem subAux_value : ∀ (a b : List ℕ) (br : ℕ),
    (∀ x ∈ a, x < limbW) → (∀ x ∈ b, x < limbW) → br ≤ 1 →
    b.length ≤ a.length → valueL b + br ≤ valueL a →
    valueL (subAux a b br) = valueL a - valueL b - br := by
  intro a
  induction a with
  | nil =>
    intro b br _ _ _ hlen hle
    have hb : b = [] := List.eq_nil_of_length_eq_zero (by simpa using hlen)
    subst hb
    simp [subAux, valueL] at hle ⊢
  | cons x xs ih =>
    intro b br hba hbb hbr hlen hle
    have hW := limbW_eq
    have hx : x < limbW := hba x (by simp)
    rcases b with _ | ⟨y, ys⟩
    · rcases eq_or_ne br 0 with rfl | hbr0
      · simp [subAux, valueL]
      · have hbr1 : br = 1 := by omega
        subst hbr1
        rw [subAux, if_neg (by omega)]
        by_cases hx1 : 1 ≤ x
        · rw [if_pos hx1]
          have e0 : (x + limbW - 1) % limbW = x - 1 := by
            rw [hW] at hx ⊢
            omega
          rw [valueL_cons, e0, subAux_nil_zero]
          rw [valueL_cons]
          simp [valueL]
          omega
        · rw [if_neg hx1]
          have hx0 : x = 0 := by omega
          subst hx0
          have e0 : (0 + limbW - 1) % limbW = limbW - 1 := by
            rw [hW]
          have hvxs : 1 ≤ valueL xs := by
            rcases Nat.eq_zero_or_pos (valueL xs) with h0 | h1
            · rw [valueL_cons, h0] at hle
              simp [valueL] at hle
            · exact h1
          have ih' : valueL (subAux xs [] 1) = valueL xs - 0 - 1 :=
            ih [] 1 (fun u hu => hba u (by simp [hu])) (by simp) le_rfl (by simp)
              (by simpa [valueL] using hvxs)
          rw [valueL_cons, e0, ih']
          obtain ⟨k, hk⟩ : ∃ k, valueL xs = k + 1 := ⟨valueL xs - 1, by omega⟩
          rw [valueL_cons]
          simp only [valueL, hk]
          have h4 : limbW * (k + 1 - 0 - 1) = limbW * k := by norm_num
          have h5 : limbW * (k + 1) = limbW * k + limbW := by ring
          omega
    · have hy : y < limbW := hbb y (by simp)
      have hlen' : ys.length ≤ xs.length := by simpa using hlen
      have hbax : ∀ u ∈ xs, u < limbW := fun u hu => hba u (by simp [hu])
      have hbby : ∀ u ∈ ys, u < limbW := fun u hu => hbb u (by simp [hu])
      have hle' : y + limbW * valueL ys + br ≤ x + limbW * valueL xs := by
        simpa [valueL_cons] using hle
      rw [subAux]
      by_cases hc : y + br ≤ x
      · rw [if_pos hc]
        have e0 : (x + limbW - y - br) % limbW = x - y - br := by
          rw [hW] at hx hy ⊢
          omega
        have hvt : valueL ys ≤ valueL xs := by
          by_contra hlt
          push_neg at hlt
          have h1 : limbW * (valueL xs + 1) ≤ limbW * valueL ys :=
            Nat.mul_le_mul_left _ (by omega)
          have hd : limbW * (valueL xs + 1) = limbW * valueL xs + limbW := by ring
          omega
        have ih' := ih ys 0 hbax hbby (by omega) hlen' (by omega)
        simp only [Nat.sub_zero] at ih'
        rw [valueL_cons, e0, ih']
        have hd2 : limbW * (valueL xs - valueL ys) + limbW * valueL ys = limbW * valueL xs := by
          rw [← Nat.mul_add, Nat.sub_add_cancel hvt]
        rw [valueL_cons, valueL_cons]
        omega
      · rw [if_neg hc]
        have e0 : (x + limbW - y - br) % limbW = x + limbW - y - br := by
          rw [hW] at hx hy ⊢
          omega
        have hvt : valueL ys + 1 ≤ valueL xs := by
          by_contra hlt
          push_neg at hlt
          have h1 : limbW * valueL xs ≤ limbW * valueL ys :=
            Nat.mul_le_mul_left _ (by omega)
          omega
        have ih' := ih ys 1 hbax hbby (by omega) hlen' (by omega)
        rw [valueL_cons, e0, ih']
        have he : valueL xs - valueL ys - 1 + valueL ys + 1 = valueL xs := by omega
        have h3 : limbW * (valueL xs - valueL ys - 1 + valueL ys + 1) = limbW * valueL xs := by
          rw [he]
        have h4 : limbW * (valueL xs - valueL ys - 1 + valueL ys + 1) =
            limbW * (valueL xs - valueL ys - 1) + limbW * valueL ys + limbW := by ring
        rw [valueL_cons, valueL_cons]
        omega

theorem subAux_bound : ∀ (a b : List ℕ) (br : ℕ),
    (∀ x ∈ a, x < limbW) → ∀ z ∈ subAux a b br, z < limbW := by
  intro a
  induction a with
  | nil =>
    intro b br _ z hz
    simp [subAux] at hz
  | cons x xs ih =>
    intro b br hba z hz
    have hbax : ∀ u ∈ xs, u < limbW := fun u hu => hba u (by simp [hu])
    rcases b with _ | ⟨y, ys⟩
    · rw [subAux] at hz
      rcases eq_or_ne br 0 with rfl | h0
      · rw [if_pos rfl] at hz
        exact hba z hz
      · rw [if_neg h0] at hz
        rcases List.mem_cons.mp hz with rfl | hz2
        · exact Nat.mod_lt _ limbW_pos
        · exact ih [] _ hbax z hz2
    · rw [subAux] at hz
      rcases List.mem_cons.mp hz with rfl | hz2
      · exact Nat.mod_lt _ limbW_pos
      · exact ih ys _ hbax z hz2

theorem bu_sub_spec (a b : List ℕ) (ha : NormalizedL a) (hb : NormalizedL b) :
    valueL (bu_sub a b) = valueL a - valueL b ∧ NormalizedL (bu_sub a b) := by
  unfold bu_sub
  cases hlt : bu_lt a b with
  | true =>
    have hv : valueL a < valueL b := (bu_lt_iff a b ha hb).mp hlt
    rw [if_pos rfl]
    constructor
    · simp [valueL]
      omega
    · exact norm_zero_list
  | false =>
    have hv : ¬(valueL a < valueL b) := by
      intro hcon
      have h2 := (bu_lt_iff a b ha hb).mpr hcon
      rw [hlt] at h2
      simp at h2
    rw [if_neg (by simp)]
    have hvle : valueL b ≤ valueL a := by omega
    have hlen : b.length ≤ a.length := by
      rw [norm_length_eq a ha, norm_length_eq b hb]
      exact blocksV_mono hvle
    constructor
    · rw [valueL_trimL, subAux_value a b 0 ha.2.1 hb.2.1 (by omega) hlen (by omega)]
      omega
    · exact trimL_normalized _ (subAux_bound a b 0 ha.2.1)

/-! ### schoolbook multiplication -/

theorem carryProp_value : ∀ (res : List ℕ) (c : ℕ), valueL (carryProp c res) = c + valueL res := by
  intro res
  induction res with
  | nil =>
    intro c
    rcases eq_or_ne c 0 with rfl | hc
    · simp [carryProp, valueL]
    · simp [carryProp, hc, valueL]
  | cons r rs ih =>
    intro c
    rcases eq_or_ne c 0 with rfl | hc
    · simp [carryProp]
    · rw [carryProp, if_neg hc, valueL_cons, ih]
      have hdm := Nat.div_add_mod (r + c) limbW
      have hd : limbW * ((r + c) / limbW + valueL rs) =
          limbW * ((r + c) / limbW) + limbW * valueL rs := by ring
      rw [valueL_cons]
      omega

theorem carryProp_length : ∀ (res : List ℕ) (c : ℕ), res.length ≤ (carryProp c res).length := by
  intro res
  induction res with
  | nil => intro c; cases c <;> simp [carryProp]
  | cons r rs ih =>
    intro c
    rcases eq_or_ne c 0 with rfl | hc
    · simp [carryProp]
    · rw [carryProp, if_neg hc]
      have := ih ((r + c) / limbW)
      simp only [List.length_cons]
      omega

theorem carryProp_bound : ∀ (res : List ℕ) (c : ℕ),
    (∀ x ∈ res, x < limbW) → c < limbW → ∀ z ∈ carryProp c res, z < limbW := by
  intro res
  induction res with
  | nil =>
    intro c _ hc z hz
    rcases eq_or_ne c 0 with rfl | h0
    · simp [carryProp] at hz
    · simp [carryProp, h0] at hz
      omega
  | cons r rs ih =>
    intro c hres hc z hz
    rcases eq_or_ne c 0 with rfl | h0
    · rw [carryProp, if_pos rfl] at hz
      exact hres z hz
    · rw [carryProp, if_neg h0] at hz
      rcases List.mem_cons.mp hz with rfl | hz2
      · exact Nat.mod_lt _ limbW_pos
      · have hr : r < limbW := hres r (by simp)
        have hcar : (r + c) / limbW < limbW := by
          have hW := limbW_eq
          rw [hW] at hr hc ⊢
          omega
        exact ih _ (fun u hu => hres u (by simp [hu])) hcar z hz2

theorem rowAdd_value (ai : ℕ) : ∀ (b res : List ℕ) (c : ℕ),
    valueL (rowAdd ai b res c) = ai * valueL b + valueL res + c := by
  intro b
  induction b with
  | nil =>
    intro res c
    rw [rowAdd, carryProp_value]
    simp [valueL]
    omega
  | cons y ys ih =>
    intro res c
    rcases res with _ | ⟨r, rs⟩
    · rw [rowAdd]
      rw [valueL_cons, ih]
      have hdm := Nat.div_add_mod (ai * y + c) limbW
      simp only [valueL]
      have hg : ai * (y + limbW * valueL ys) = ai * y + limbW * (ai * valueL ys) := by
        ring
      have hd : limbW * (ai * valueL ys + 0 + (ai * y + c) / limbW) =
          limbW * (ai * valueL ys) + limbW * ((ai * y + c) / limbW) := by ring
      omega
    · rw [rowAdd]
      rw [valueL_cons, ih]
      have hdm := Nat.div_add_mod (ai * y + r + c) limbW
      simp only [valueL]
      have hg : ai * (y + limbW * valueL ys) = ai * y + limbW * (ai * valueL ys) := by
        ring
      have hd : limbW * (ai * valueL ys + valueL rs + (ai * y + r + c) / limbW) =
          limbW * (ai * valueL ys) + limbW * valueL rs +
          limbW * ((ai * y + r + c) / limbW) := by ring
      omega

theorem rowAdd_length (ai : ℕ) : ∀ (b res : List ℕ) (c : ℕ),
    res.length ≤ (rowAdd ai b res c).length := by
  intro b
  induction b with
  | nil => intro res c; rw [rowAdd]; exact carryProp_length res c
  | cons y ys ih =>
    intro res c
    rcases res with _ | ⟨r, rs⟩
    · simp
    · rw [rowAdd]
      simp only [List.length_cons]
      have := ih rs ((ai * y + r + c) / limbW)
      omega

theorem rowAdd_bound (ai : ℕ) (hai : ai < limbW) : ∀ (b res : List ℕ) (c : ℕ),
    (∀ x ∈ b, x < limbW) → (∀ x ∈ res, x < limbW) → c < limbW →
    ∀ z ∈ rowAdd ai b res c, z < limbW := by
  intro b
  induction b with
  | nil =>
    intro res c _ hres hc z hz
    rw [rowAdd] at hz
    exact carryProp_bound res c hres hc z hz
  | cons y ys ih =>
    intro res c hb hres hc z hz
    have hy : y < limbW := hb y (by simp)
    have hW := limbW_eq
    have hprod : ai * y ≤ 4294967295 * 4294967295 :=
      Nat.mul_le_mul (by omega) (by omega)
    rcases res with _ | ⟨r, rs⟩
    · rw [rowAdd] at hz
      rcases List.mem_cons.mp hz with rfl | hz2
      · exact Nat.mod_lt _ limbW_pos
      · have hcar : (ai * y + c) / limbW < limbW := by
          rw [hW] at hc ⊢
          omega
        exact ih [] _ (fun u hu => hb u (by simp [hu])) (by simp) hcar z hz2
    · rw [rowAdd] at hz
      rcases List.mem_cons.mp hz with rfl | hz2
      · exact Nat.mod_lt _ limbW_pos
      · have hr : r < limbW := hres r (by simp)
        have hcar : (ai * y + r + c) / limbW < limbW := by
          rw [hW] at hc hr ⊢
          omega
        exact ih rs _ (fun u hu => hb u (by simp [hu]))
          (fun u hu => hres u (by simp [hu])) hcar z hz2

theorem mulRows_value : ∀ (a b res : List ℕ), a.length ≤ res.length →
    valueL (mulRows a b res) = valueL a * valueL b + valueL res := by
  intro a
  induction a with
  | nil =>
    intro b res _
    rw [mulRows]
    simp [valueL]
  | cons x xs ih =>
    intro b res hlen
    rcases res with _ | ⟨r, rs⟩
    · simp at hlen
    · have hlen' : xs.length ≤ rs.length := by simpa using hlen
      rw [mulRows]
      by_cases hx0 : x = 0
      · rw [if_pos hx0]
        subst hx0
        rw [valueL_cons, ih b rs hlen']
        simp only [valueL_cons]
        have hd : limbW * (valueL xs * valueL b + valueL rs) =
            limbW * (valueL xs * valueL b) + limbW * valueL rs := by ring
        have hg : (0 + limbW * valueL xs) * valueL b = limbW * (valueL xs * valueL b) := by
          ring
        omega
      · rw [if_neg hx0]
        have hv1 := rowAdd_value x b (r :: rs) 0
        have hl1 := rowAdd_length x b (r :: rs) 0
        rcases hrow : rowAdd x b (r :: rs) 0 with _ | ⟨r1, rs1⟩
        · rw [hrow] at hl1; simp at hl1
        · rw [hrow] at hv1 hl1
          have hlen2 : xs.length ≤ rs1.length := by
            simp only [List.length_cons] at hl1 hlen
            omega
          rw [valueL_cons, ih b rs1 hlen2]
          simp only [valueL_cons] at hv1 ⊢
          have hg : (x + limbW * valueL xs) * valueL b =
              x * valueL b + limbW * (valueL xs * valueL b) := by ring
          have hd : limbW * (valueL xs * valueL b + valueL rs1) =
              limbW * (valueL xs * valueL b) + limbW * valueL rs1 := by ring
          omega

theorem mulRows_bound : ∀ (a b res : List ℕ),
    (∀ x ∈ a, x < limbW) → (∀ x ∈ b, x < limbW) → (∀ x ∈ res, x < limbW) →
    ∀ z ∈ mulRows a b res, z < limbW := by
  intro a
  induction a with
  | nil => intro b res _ _ hres z hz; rw [mulRows] at hz; exact hres z hz
  | cons x xs ih =>
    intro b res hba hbb hres z hz
    rcases res with _ | ⟨r, rs⟩
    · rw [mulRows] at hz; simp at hz
    · rw [mulRows] at hz
      by_cases hx0 : x = 0
      · rw [if_pos hx0] at hz
        rcases List.mem_cons.mp hz with rfl | hz2
        · exact hres z (by simp)
        · exact ih b rs (fun u hu => hba u (by simp [hu])) hbb
            (fun u hu => hres u (by simp [hu])) z hz2
      · rw [if_neg hx0] at hz
        have hx : x < limbW := hba x (by simp)
        have hrowb := rowAdd_bound x hx b (r :: rs) 0 hbb hres limbW_pos
        rcases hrow : rowAdd x b (r :: rs) 0 with _ | ⟨r1, rs1⟩
        · rw [hrow] at hz; simp at hz
        · rw [hrow] at hz hrowb
          rcases List.mem_cons.mp hz with rfl | hz2
          · exact hrowb z (by simp)
          · exact ih b rs1 (fun u hu => hba u (by simp [hu])) hbb
              (fun u hu => hrowb u (by simp [hu])) z hz2

theorem multiply_default_spec (a b : List ℕ) (ha : NormalizedL a) (hb : NormalizedL b) :
    valueL (multiply_default a b) = valueL a * valueL b ∧
      NormalizedL (multiply_default a b) := by
  unfold multiply_default
  by_cases hza : a = [0]
  · subst hza
    simp [bu_is_zero, valueL, norm_zero_list]
  · by_cases hzb : b = [0]
    · subst hzb
      simp [bu_is_zero, valueL, norm_zero_list]
    · rw [if_neg (by simp [bu_is_zero, hza, hzb])]
      by_cases hoa : a = [1]
      · subst hoa
        rw [if_pos (by simp [bu_is_one])]
        simp [valueL, hb]
      · rw [if_neg (by simp [bu_is_one, hoa])]
        by_cases hob : b = [1]
        · subst hob
          rw [if_pos (by simp [bu_is_one])]
          simp [valueL, ha]
        · rw [if_neg (by simp [bu_is_one, hob])]
          have hlen : a.length ≤ (List.replicate (a.length + b.length) 0).length := by
            simp
          constructor
          · rw [valueL_trimL, mulRows_value a b _ hlen, valueL_replicate_zero]
            omega
          · apply trimL_normalized
            apply mulRows_bound a b _ ha.2.1 hb.2.1
            intro u hu
            have := List.eq_of_mem_replicate hu
            simp [this, limbW]

/-! ### karatsuba multiplication -/

theorem valueL_take_drop (k : ℕ) : ∀ l : List ℕ,
    valueL l = valueL (l.take k) + limbW ^ k * valueL (l.drop k) := by
  induction k with
  | zero => intro l; simp [valueL]
  | succ m ih =>
    intro l
    cases l with
    | nil => simp [valueL]
    | cons x xs =>
      simp only [List.take_succ_cons, List.drop_succ_cons, valueL_cons, ih xs, pow_succ]
      ring

theorem valueL_shift (k : ℕ) (z : List ℕ) :
    valueL (List.replicate k 0 ++ z) = limbW ^ k * valueL z := by
  rw [valueL_append, valueL_replicate_zero, List.length_replicate]
  simp [valueL]

theorem norm_shift (k : ℕ) (z : List ℕ) (hz : NormalizedL z) (h0 : z ≠ [0]) :
    NormalizedL (List.replicate k 0 ++ z) := by
  refine ⟨fun hcon => hz.1 (List.append_eq_nil.mp hcon).2, ?_, ?_⟩
  · intro x hx
    rcases List.mem_append.mp hx with h | h
    · have := List.eq_of_mem_replicate h
      simp [this, limbW]
    · exact hz.2.1 x h
  · intro hlast
    rw [List.getLast?_append_of_ne_nil _ hz.1] at hlast
    exact (h0 (hz.2.2 hlast)).elim

theorem trimL_length_le (l : List ℕ) : (trimL l).length ≤ max l.length 1 := by
  unfold trimL
  simp only
  split
  · simp
  · have h : (l.reverse.dropWhile (fun x => decide (x = 0))).length ≤ l.reverse.length :=
      (List.dropWhile_sublist _).length_le
    simp only [List.length_reverse] at h ⊢
    omega

theorem addAux_nil_right_length : ∀ (a : List ℕ) (c : ℕ),
    (addAux a [] c).length ≤ a.length + 1 := by
  intro a
  induction a with
  | nil => intro c; rw [addAux, addCarry]; split <;> simp
  | cons x xs ih =>
    intro c
    rw [addAux]
    split
    · simp only [List.length_cons]; omega
    · simp only [List.length_cons]
      have := ih ((x + c) / limbW)
      omega

theorem addAux_nil_left_length : ∀ (b : List ℕ) (c : ℕ),
    (addAux [] b c).length ≤ b.length + 1 := by
  intro b c
  rw [addAux]
  exact addCarry_length b c

theorem addAux_length : ∀ (a b : List ℕ) (c : ℕ),
    (addAux a b c).length ≤ max a.length b.length + 1 := by
  intro a
  induction a with
  | nil =>
    intro b c
    have := addAux_nil_left_length b c
    simp only [List.length_nil]
    omega
  | cons x xs ih =>
    intro b c
    cases b with
    | nil =>
      have := addAux_nil_right_length (x :: xs) c
      simp only [List.length_nil, List.length_cons] at this ⊢
      omega
    | cons y ys =>
      rw [addAux]
      simp only [List.length_cons]
      have := ih ys ((x + y + c) / limbW)
      omega

theorem bu_add_length (a b : List ℕ) : (bu_add a b).length ≤ max a.length b.length + 1 := by
  unfold bu_add
  split
  · omega
  · have h1 := trimL_length_le (addAux a b 0)
    have h2 := addAux_length a b 0
    omega

theorem subAux_length : ∀ (a b : List ℕ) (br : ℕ), (subAux a b br).length = a.length := by
  intro a
  induction a with
  | nil => intro b br; rw [subAux]
  | cons x xs ih =>
    intro b br
    cases b with
    | nil =>
      rw [subAux]
      split
      · rfl
      · simp only [List.length_cons, ih]
    | cons y ys =>
      rw [subAux]
      simp only [List.length_cons, ih]

theorem bu_sub_length (a b : List ℕ) : (bu_sub a b).length ≤ max a.length 1 := by
  unfold bu_sub
  split
  · simp only [List.length_cons, List.length_nil]
    omega
  · have h1 := trimL_length_le (subAux a b 0)
    have h2 := subAux_length a b 0
    omega

/-- The shifted-add recombination step of `multiply_karatsuba`: skipping the
add when the summand is zero has the same value as always adding the shifted
summand, and keeps the invariant. -/
theorem shift_add_value (z0 z : List ℕ) (k : ℕ) (h0 : NormalizedL z0) (hz : NormalizedL z) :
    valueL (if bu_is_zero z then z0 else bu_add z0 (List.replicate k 0 ++ z)) =
      valueL z0 + limbW ^ k * valueL z ∧
    NormalizedL (if bu_is_zero z then z0 else bu_add z0 (List.replicate k 0 ++ z)) := by
  by_cases hzz : z = [0]
  · subst hzz
    simp [bu_is_zero, valueL, h0]
  · rw [if_neg (by simpa [bu_is_zero] using hzz)]
    have hsh := norm_shift k z hz hzz
    have h := bu_add_spec z0 _ h0 hsh
    rw [valueL_shift] at h
    exact h

/-- Correctness of one karatsuba step, given that the abstracted recursive
multiplication is correct on argument pairs whose total limb count is
smaller by at least 30 (the slack every sub-product of a split at
`half ≥ 33` enjoys). -/
theorem karatsubaStep_spec (recMul : List ℕ → List ℕ → List ℕ) (a b : List ℕ)
    (ha : NormalizedL a) (hb : NormalizedL b)
    (hrec : ∀ x y, NormalizedL x → NormalizedL y →
      x.length + y.length + 30 ≤ a.length + b.length →
      valueL (recMul x y) = valueL x * valueL y ∧ NormalizedL (recMul x y)) :
    valueL (karatsubaStep recMul a b) = valueL a * valueL b ∧
      NormalizedL (karatsubaStep recMul a b) := by
  simp only [karatsubaStep]
  by_cases hza : a = [0]
  · subst hza; simp [bu_is_zero, valueL, norm_zero_list]
  · by_cases hzb : b = [0]
    · subst hzb; simp [bu_is_zero, valueL, norm_zero_list]
    · rw [if_neg (by simp [bu_is_zero, hza, hzb])]
      by_cases hoa : a = [1]
      · subst hoa; rw [if_pos (by simp [bu_is_one])]; simp [valueL, hb]
      · rw [if_neg (by simp [bu_is_one, hoa])]
        by_cases hob : b = [1]
        · subst hob; rw [if_pos (by simp [bu_is_one])]; simp [valueL, ha]
        · rw [if_neg (by simp [bu_is_one, hob])]
          by_cases hn : max a.length b.length ≤ 64
          · rw [if_pos hn]
            exact multiply_default_spec a b ha hb
          · rw [if_neg hn]
            have hla1 : 1 ≤ a.length := List.length_pos.mpr ha.1
            have hlb1 : 1 ≤ b.length := List.length_pos.mpr hb.1
            set n := max a.length b.length with hndef
            have hc : n = a.length ∨ n = b.length := by
              rw [hndef]; exact max_choice a.length b.length
            have hna : a.length ≤ n := hndef ▸ le_max_left _ _
            have hnb : b.length ≤ n := hndef ▸ le_max_right _ _
            have h65 : 65 ≤ n := by omega
            set half := (n + 1) / 2 with hhalf
            set aLow := trimL (List.take half a) with haLowD
            set aHigh := (if half < a.length then trimL (List.drop half a) else [0]) with haHighD
            set bLow := trimL (List.take half b) with hbLowD
            set bHigh := (if half < b.length then trimL (List.drop half b) else [0]) with hbHighD
            have haLown : NormalizedL aLow :=
              trimL_normalized _ (fun x hx => ha.2.1 x (List.take_subset _ _ hx))
            have hbLown : NormalizedL bLow :=
              trimL_normalized _ (fun x hx => hb.2.1 x (List.take_subset _ _ hx))
            have haLowv : valueL aLow = valueL (List.take half a) := valueL_trimL _
            have hbLowv : valueL bLow = valueL (List.take half b) := valueL_trimL _
            have haHighn : NormalizedL aHigh := by
              rw [haHighD]
              split
              · exact trimL_normalized _ (fun x hx => ha.2.1 x (List.drop_subset _ _ hx))
              · exact norm_zero_list
            have hbHighn : NormalizedL bHigh := by
              rw [hbHighD]
              split
              · exact trimL_normalized _ (fun x hx => hb.2.1 x (List.drop_subset _ _ hx))
              · exact norm_zero_list
            have haHighv : valueL aHigh = valueL (List.drop half a) := by
              rw [haHighD]
              split
              · exact valueL_trimL _
              · rename_i hcon
                rw [List.drop_eq_nil_of_le (by omega)]
                simp [valueL]
            have hbHighv : valueL bHigh = valueL (List.drop half b) := by
              rw [hbHighD]
              split
              · exact valueL_trimL _
              · rename_i hcon
                rw [List.drop_eq_nil_of_le (by omega)]
                simp [valueL]
            have haLowl : aLow.length ≤ half ∧ aLow.length ≤ a.length := by
              have h1 := trimL_length_le (List.take half a)
              rw [← haLowD, List.length_take] at h1
              constructor <;> omega
            have hbLowl : bLow.length ≤ half ∧ bLow.length ≤ b.length := by
              have h1 := trimL_length_le (List.take half b)
              rw [← hbLowD, List.length_take] at h1
              constructor <;> omega
            have haHighl : aHigh.length ≤ max (a.length - half) 1 := by
              rw [haHighD]
              split
              · have h1 := trimL_length_le (List.drop half a)
                rw [List.length_drop] at h1
                omega
              · simp only [List.length_cons, List.length_nil]
                omega
            have hbHighl : bHigh.length ≤ max (b.length - half) 1 := by
              rw [hbHighD]
              split
              · have h1 := trimL_length_le (List.drop half b)
                rw [List.length_drop] at h1
                omega
              · simp only [List.length_cons, List.length_nil]
                omega
            have hz2m : aHigh.length + bHigh.length + 30 ≤ a.length + b.length := by omega
            have hz0m : aLow.length + bLow.length + 30 ≤ a.length + b.length := by omega
            have hAl := bu_add_length aLow aHigh
            have hBl := bu_add_length bLow bHigh
            have hz1m : (bu_add aLow aHigh).length + (bu_add bLow bHigh).length + 30 ≤
                a.length + b.length := by omega
            obtain ⟨hz2v, hz2n⟩ := hrec aHigh bHigh haHighn hbHighn hz2m
            obtain ⟨hz0v, hz0n⟩ := hrec aLow bLow haLown hbLown hz0m
            have haddA := bu_add_spec aLow aHigh haLown haHighn
            have haddB := bu_add_spec bLow bHigh hbLown hbHighn
            obtain ⟨hz1v, hz1n⟩ := hrec _ _ haddA.2 haddB.2 hz1m
            have hs1 := bu_sub_spec (recMul (bu_add aLow aHigh) (bu_add bLow bHigh))
              (recMul aLow bLow) hz1n hz0n
            have hs2 := bu_sub_spec _ (recMul aHigh bHigh) hs1.2 hz2n
            have hcross : valueL (bu_sub (bu_sub
                (recMul (bu_add aLow aHigh) (bu_add bLow bHigh)) (recMul aLow bLow))
                (recMul aHigh bHigh)) =
                valueL (List.take half a) * valueL (List.drop half b) +
                valueL (List.drop half a) * valueL (List.take half b) := by
              rw [hs2.1, hs1.1, hz1v, haddA.1, haddB.1, hz0v, hz2v,
                haLowv, hbLowv, haHighv, hbHighv]
              have hexp : (valueL (List.take half a) + valueL (List.drop half a)) *
                  (valueL (List.take half b) + valueL (List.drop half b)) =
                  valueL (List.take half a) * valueL (List.take half b) +
                  (valueL (List.take half a) * valueL (List.drop half b) +
                   valueL (List.drop half a) * valueL (List.take half b)) +
                  valueL (List.drop half a) * valueL (List.drop half b) := by ring
              omega
            obtain ⟨hr1v, hr1n⟩ := shift_add_value (recMul aLow bLow)
              (bu_sub (bu_sub (recMul (bu_add aLow aHigh) (bu_add bLow bHigh))
                (recMul aLow bLow)) (recMul aHigh bHigh)) half hz0n hs2.2
            obtain ⟨hr2v, hr2n⟩ := shift_add_value _ (recMul aHigh bHigh) (2 * half) hr1n hz2n
            constructor
            · rw [valueL_trimL, hr2v, hr1v, hcross, hz0v, hz2v,
                haLowv, hbLowv, haHighv, hbHighv]
              rw [valueL_take_drop half a, valueL_take_drop half b]
              have h2h : limbW ^ (2 * half) = limbW ^ half * limbW ^ half := by
                rw [two_mul, pow_add]
              rw [h2h]
              ring
            · exact trimL_normalized _ hr2n.2.1

/-- `operator*=` is a correct multiplication whenever the fuel exceeds the
total limb count (the recursion shrinks that total by at least 30 per
karatsuba level, so a drop of 1 in fuel is amply covered). -/
theorem mulAuxL_spec : ∀ (fuel : ℕ) (a b : List ℕ), NormalizedL a → NormalizedL b →
    a.length + b.length < fuel →
    valueL (mulAuxL fuel a b) = valueL a * valueL b ∧ NormalizedL (mulAuxL fuel a b) := by
  intro fuel
  induction fuel with
  | zero => intro a b _ _ h; exact absurd h (Nat.not_lt_zero _)
  | succ f ih =>
    intro a b ha hb hlen
    rw [mulAuxL]
    by_cases hzb : b = [0]
    · subst hzb; simp [bu_is_zero, valueL, norm_zero_list]
    · by_cases hza : a = [0]
      · subst hza; simp [bu_is_zero, valueL, norm_zero_list]
      · rw [if_neg (by simp [bu_is_zero, hza, hzb])]
        by_cases hob : b = [1]
        · subst hob; rw [if_pos (by simp [bu_is_one])]; simp [valueL, ha]
        · rw [if_neg (by simp [bu_is_one, hob])]
          by_cases hoa : a = [1]
          · subst hoa; rw [if_pos (by simp [bu_is_one])]; simp [valueL, hb]
          · rw [if_neg (by simp [bu_is_one, hoa])]
            by_cases hbig : 128 < a.length + b.length
            · rw [if_pos hbig]
              exact karatsubaStep_spec (mulAuxL f) a b ha hb
                (fun x y hx hy hm => ih x y hx hy (by omega))
            · rw [if_neg hbig]
              exact multiply_default_spec a b ha hb

theorem bu_mul_spec (a b : List ℕ) (ha : NormalizedL a) (hb : NormalizedL b) :
    valueL (bu_mul a b) = valueL a * valueL b ∧ NormalizedL (bu_mul a b) :=
  mulAuxL_spec _ a b ha hb (by omega)

theorem multiply_karatsuba_spec (a b : List ℕ) (ha : NormalizedL a) (hb : NormalizedL b) :
    valueL (multiply_karatsuba a b) = valueL a * valueL b ∧
      NormalizedL (multiply_karatsuba a b) :=
  karatsubaStep_spec _ a b ha hb
    (fun x y hx hy hm => mulAuxL_spec _ x y hx hy (by omega))

/-! ### string round-trip: folding lemmas -/

theorem charToDigit_digit_char : ∀ d, d < 36 → charToDigit (digit_char d) = d := by decide

theorem foldChars_nil (b acc : ℕ) : foldChars b acc [] = acc := rfl

theorem foldChars_cons (b acc : ℕ) (c : Char) (cs : List Char) :
    foldChars b acc (c :: cs) = foldChars b (acc * b + charToDigit c) cs := rfl

theorem foldChars_append (b acc : ℕ) (xs ys : List Char) :
    foldChars b acc (xs ++ ys) = foldChars b (foldChars b acc xs) ys := by
  unfold foldChars
  rw [List.foldl_append]

theorem foldChars_acc (b : ℕ) : ∀ (cs : List Char) (acc : ℕ),
    foldChars b acc cs = acc * b ^ cs.length + foldChars b 0 cs := by
  intro cs
  induction cs with
  | nil => intro acc; simp [foldChars]
  | cons c cs ih =>
    intro acc
    rw [foldChars_cons, foldChars_cons, ih, ih (0 * b + charToDigit c)]
    simp only [List.length_cons]
    ring

theorem foldChars_lt (b : ℕ) (hb : 0 < b) : ∀ (cs : List Char) (acc : ℕ),
    (∀ c ∈ cs, charToDigit c < b) →
    foldChars b acc cs < (acc + 1) * b ^ cs.length := by
  intro cs
  induction cs with
  | nil => intro acc _; simp [foldChars]
  | cons c cs ih =>
    intro acc hv
    rw [foldChars_cons]
    simp only [List.length_cons]
    have h1 := ih (acc * b + charToDigit c) (fun x hx => hv x (by simp [hx]))
    have hd : charToDigit c < b := hv c (by simp)
    calc foldChars b (acc * b + charToDigit c) cs
        < (acc * b + charToDigit c + 1) * b ^ cs.length := h1
      _ ≤ ((acc + 1) * b) * b ^ cs.length := by
          refine Nat.mul_le_mul_right _ ?_
          have hexp : (acc + 1) * b = acc * b + b := by ring
          omega
      _ = (acc + 1) * b ^ (cs.length + 1) := by ring

theorem mod_pow_top (b m v : ℕ) : v % b ^ (m + 1) = v / b ^ m % b * b ^ m + v % b ^ m := by
  have h : v % (b ^ m * b) = v % b ^ m + b ^ m * (v / b ^ m % b) := Nat.mod_mul
  rw [← pow_succ] at h
  have hc : v / b ^ m % b * b ^ m = b ^ m * (v / b ^ m % b) := by ring
  omega

theorem renderLSB_ne_nil (b f v : ℕ) : renderLSB b (f + 1) v ≠ [] := by
  rw [renderLSB]; simp

theorem renderLSB_valid (b : ℕ) (h2 : 2 ≤ b) (hb : b ≤ 36) : ∀ (f v : ℕ),
    ∀ c ∈ renderLSB b f v, charToDigit c < b := by
  intro f
  induction f with
  | zero => intro v c hc; rw [renderLSB] at hc; exact absurd hc (List.not_mem_nil c)
  | succ g ih =>
    intro v c hc
    rw [renderLSB] at hc
    rcases List.mem_cons.mp hc with rfl | hmem
    · have hm : v % b < b := Nat.mod_lt _ (by omega)
      rw [charToDigit_digit_char (v % b) (by omega)]
      omega
    · split at hmem
      · exact ih _ c hmem
      · exact absurd hmem (List.not_mem_nil c)

theorem renderLSB_fold (b : ℕ) (h2 : 2 ≤ b) (hb : b ≤ 36) : ∀ (f v : ℕ), v < f →
    foldChars b 0 (renderLSB b f v).reverse = v := by
  intro f
  induction f with
  | zero => intro v h; exact absurd h (Nat.not_lt_zero v)
  | succ g ih =>
    intro v hv
    rw [renderLSB]
    have hm : v % b < b := Nat.mod_lt _ (by omega)
    by_cases hq : 0 < v / b
    · rw [if_pos hq]
      have hvpos : 0 < v := by
        rcases Nat.eq_zero_or_pos v with rfl | h
        · simp at hq
        · exact h
      have hlt : v / b < v := Nat.div_lt_self hvpos (by omega)
      rw [List.reverse_cons, foldChars_append, ih (v / b) (by omega)]
      rw [foldChars_cons, foldChars_nil]
      rw [charToDigit_digit_char (v % b) (by omega)]
      have := Nat.div_add_mod v b
      have hcm : v / b * b = b * (v / b) := by ring
      omega
    · rw [if_neg hq]
      simp only [List.reverse_cons, List.reverse_nil, List.nil_append]
      rw [foldChars_cons, foldChars_nil]
      rw [charToDigit_digit_char (v % b) (by omega)]
      have hsmall : v % b = v := Nat.mod_eq_of_lt (by
        rcases Nat.lt_or_ge v b with h | h
        · exact h
        · exact absurd (Nat.div_pos h (by omega)) hq)
      omega

theorem renderPad_succ (b m v : ℕ) :
    renderPad b (m + 1) v = digit_char (v / b ^ m % b) :: renderPad b m v := by
  unfold renderPad
  rw [List.range_succ, List.map_append, List.reverse_append]
  rfl

theorem renderPad_fold (b : ℕ) (h2 : 2 ≤ b) (hb : b ≤ 36) (m : ℕ) : ∀ (v acc : ℕ),
    foldChars b acc (renderPad b m v) = acc * b ^ m + v % b ^ m := by
  induction m with
  | zero =>
    intro v acc
    simp [renderPad, foldChars, Nat.mod_one]
  | succ k ih =>
    intro v acc
    rw [renderPad_succ, foldChars_cons, ih]
    have hm : v / b ^ k % b < b := Nat.mod_lt _ (by omega)
    rw [charToDigit_digit_char _ (by omega)]
    rw [mod_pow_top]
    ring

theorem renderPad_valid (b : ℕ) (h2 : 2 ≤ b) (hb : b ≤ 36) (m v : ℕ) :
    ∀ c ∈ renderPad b m v, charToDigit c < b := by
  intro c hc
  unfold renderPad at hc
  rw [List.mem_reverse] at hc
  obtain ⟨j, hj, rfl⟩ := List.mem_map.mp hc
  have hm : v / b ^ j % b < b := Nat.mod_lt _ (by omega)
  rw [charToDigit_digit_char _ (by omega)]
  omega

/-! ### superdigit extraction -/

theorem divmodSmallMSB_spec (CB : ℕ) (hCB : 0 < CB) : ∀ (xs : List ℕ) (r : ℕ),
    (∀ x ∈ xs, x < limbW) → r < CB →
    valueL (divmodSmallMSB CB xs r).1.reverse =
      (valueL xs.reverse + r * limbW ^ xs.length) / CB ∧
    (divmodSmallMSB CB xs r).2 = (valueL xs.reverse + r * limbW ^ xs.length) % CB ∧
    (divmodSmallMSB CB xs r).1.length = xs.length ∧
    (∀ q ∈ (divmodSmallMSB CB xs r).1, q < limbW) := by
  intro xs
  induction xs with
  | nil =>
    intro r _ hr
    simp only [divmodSmallMSB, List.reverse_nil, List.length_nil, pow_zero, mul_one]
    refine ⟨?_, ?_, by simp, by simp⟩
    · simp only [valueL]
      rw [Nat.div_eq_of_lt (by omega)]
    · simp only [valueL]
      rw [Nat.mod_eq_of_lt (by omega)]
      omega
  | cons x xs ih =>
    intro r hx hr
    have hxW : x < limbW := hx x (by simp)
    obtain ⟨ih1, ih2, ih3, ih4⟩ := ih ((r * limbW + x) % CB)
      (fun z hz => hx z (by simp [hz])) (Nat.mod_lt _ hCB)
    have hsplit := Nat.div_add_mod (r * limbW + x) CB
    have hnum : valueL xs.reverse + limbW ^ xs.length * x + r * limbW ^ (xs.length + 1) =
        valueL xs.reverse + (r * limbW + x) % CB * limbW ^ xs.length +
        CB * (limbW ^ xs.length * ((r * limbW + x) / CB)) := by
      calc valueL xs.reverse + limbW ^ xs.length * x + r * limbW ^ (xs.length + 1)
          = valueL xs.reverse +
            (CB * ((r * limbW + x) / CB) + (r * limbW + x) % CB) * limbW ^ xs.length := by
            rw [hsplit]; ring
        _ = _ := by ring
    simp only [divmodSmallMSB]
    refine ⟨?_, ?_, ?_, ?_⟩
    · rw [List.reverse_cons, List.reverse_cons, valueL_append, valueL_append, ih1]
      simp only [List.length_reverse, ih3, List.length_cons, valueL_cons, valueL,
        mul_zero, add_zero]
      rw [hnum, Nat.add_mul_div_left _ _ hCB]
    · rw [ih2, List.reverse_cons, valueL_append]
      simp only [List.length_reverse, valueL_cons, valueL, mul_zero, add_zero,
        List.length_cons]
      rw [hnum, Nat.add_mul_mod_self_left]
    · simp only [List.length_cons, ih3]
    · intro q hq
      rcases List.mem_cons.mp hq with rfl | h
      · refine Nat.div_lt_of_lt_mul ?_
        have h1 : r * limbW ≤ (CB - 1) * limbW := Nat.mul_le_mul_right _ (by omega)
        have h2 : (CB - 1) * limbW + limbW = CB * limbW := by
          calc (CB - 1) * limbW + limbW = (CB - 1 + 1) * limbW := by ring
            _ = CB * limbW := by rw [Nat.sub_add_cancel hCB]
        omega
      · exact ih4 q h

theorem superStep_spec (CB : ℕ) (hCB : 0 < CB) (l : List ℕ) (hl : NormalizedL l) :
    valueL (superStep CB l).1 = valueL l / CB ∧ (superStep CB l).2 = valueL l % CB ∧
    NormalizedL (superStep CB l).1 := by
  obtain ⟨h1, h2, h3, h4⟩ := divmodSmallMSB_spec CB hCB l.reverse 0
    (fun x hx => hl.2.1 x (List.mem_reverse.mp hx)) hCB
  rw [List.reverse_reverse] at h1 h2
  simp only [superStep]
  refine ⟨?_, ?_, ?_⟩
  · rw [valueL_trimL, h1]
    simp
  · rw [h2]
    simp
  · exact trimL_normalized _ (fun x hx => h4 x (List.mem_reverse.mp hx))

theorem natChunks_zero (CB : ℕ) : ∀ f, natChunks CB f 0 = [] := by
  intro f
  cases f with
  | zero => rw [natChunks]
  | succ g => rw [natChunks]; simp

theorem superdigits_eq_natChunks (CB : ℕ) (hCB : 2 ≤ CB) : ∀ (fuel : ℕ) (l : List ℕ),
    NormalizedL l → superdigits CB fuel l = natChunks CB fuel (valueL l) := by
  intro fuel
  induction fuel with
  | zero => intro l _; rw [superdigits, natChunks]
  | succ f ih =>
    intro l hl
    simp only [superdigits, natChunks]
    by_cases hz : l = [0]
    · rw [if_pos (by simp [bu_is_zero, hz]), if_pos (by subst hz; simp [valueL])]
    · have hv0 : valueL l ≠ 0 := fun hc => hz ((norm_value_zero_iff l hl).mp hc)
      rw [if_neg (by simp [bu_is_zero, hz]), if_neg hv0]
      obtain ⟨s1, s2, s3⟩ := superStep_spec CB (by omega) l hl
      rw [s2, ih _ s3, s1]

theorem natChunks_bound (CB : ℕ) (hCB : 0 < CB) : ∀ (f v : ℕ), ∀ c ∈ natChunks CB f v,
    c < CB := by
  intro f
  induction f with
  | zero => intro v c hc; rw [natChunks] at hc; exact absurd hc (List.not_mem_nil c)
  | succ g ih =>
    intro v c hc
    rw [natChunks] at hc
    split at hc
    · exact absurd hc (List.not_mem_nil c)
    · rcases List.mem_cons.mp hc with rfl | h
      · exact Nat.mod_lt _ hCB
      · exact ih _ c h

theorem natChunks_foldRev (CB : ℕ) (hCB : 2 ≤ CB) : ∀ (f v acc : ℕ), v < f →
    (natChunks CB f v).reverse.foldl (fun a c => a * CB + c) acc =
      acc * CB ^ (natChunks CB f v).length + v := by
  intro f
  induction f with
  | zero => intro v acc h; exact absurd h (Nat.not_lt_zero v)
  | succ g ih =>
    intro v acc hv
    rw [natChunks]
    split
    · rename_i h
      subst h
      simp
    · rename_i h
      have hpos : 0 < v := Nat.pos_of_ne_zero h
      have hdlt : v / CB < v := Nat.div_lt_self hpos (by omega)
      rw [List.reverse_cons, List.foldl_append, ih (v / CB) acc (by omega)]
      simp only [List.foldl_cons, List.foldl_nil, List.length_cons]
      have hdm := Nat.div_add_mod v CB
      have hpow : acc * CB ^ ((natChunks CB g (v / CB)).length + 1) =
          acc * CB ^ (natChunks CB g (v / CB)).length * CB := by ring
      have hcm : CB * (v / CB) = v / CB * CB := by ring
      have hdist : (acc * CB ^ (natChunks CB g (v / CB)).length + v / CB) * CB =
          acc * CB ^ (natChunks CB g (v / CB)).length * CB + v / CB * CB := by ring
      omega

theorem natChunks_last (CB : ℕ) (hCB : 2 ≤ CB) : ∀ (f v : ℕ), 0 < v → v < f →
    ∃ d ds, (natChunks CB f v).reverse = d :: ds ∧ 0 < d := by
  intro f
  induction f with
  | zero => intro v h hf; exact absurd hf (Nat.not_lt_zero v)
  | succ g ih =>
    intro v hv hf
    rw [natChunks, if_neg (by omega)]
    by_cases hq : v / CB = 0
    · have hvCB : v < CB := by
        rcases Nat.lt_or_ge v CB with h | h
        · exact h
        · exact absurd (Nat.div_pos h (by omega)) (by omega)
      refine ⟨v % CB, [], ?_, ?_⟩
      · rw [hq, natChunks_zero]
        rfl
      · rw [Nat.mod_eq_of_lt hvCB]
        exact hv
    · have hdlt : v / CB < v := Nat.div_lt_self hv (by omega)
      obtain ⟨d, ds, hds, hd⟩ := ih (v / CB) (Nat.pos_of_ne_zero hq) (by omega)
      exact ⟨d, ds ++ [v % CB], by rw [List.reverse_cons, hds]; rfl, hd⟩

/-! ### optimal base computation -/

theorem opt_loop_pow (b : ℕ) : ∀ (f bv c : ℕ), bv = b ^ c →
    (opt_loop b f bv c).1 = b ^ (opt_loop b f bv c).2 := by
  intro f
  induction f with
  | zero => intro bv c h; rw [opt_loop]; exact h
  | succ g ih =>
    intro bv c h
    rw [opt_loop]
    split
    · exact ih _ _ (by rw [h, pow_succ])
    · exact h

theorem opt_base_pow (b : ℕ) : opt_base b = b ^ opt_digits b :=
  opt_loop_pow b 16 b 1 (by rw [pow_one])

theorem opt_loop_c_ge (b : ℕ) : ∀ (f bv c : ℕ), c ≤ (opt_loop b f bv c).2 := by
  intro f
  induction f with
  | zero => intro bv c; rw [opt_loop]
  | succ g ih =>
    intro bv c
    rw [opt_loop]
    split
    · exact le_trans (by omega) (ih (bv * b) (c + 1))
    · exact Nat.le_refl c

theorem opt_digits_pos (b : ℕ) : 1 ≤ opt_digits b := opt_loop_c_ge b 16 b 1

theorem opt_base_ge (b : ℕ) (hb : 2 ≤ b) : 2 ≤ opt_base b := by
  rw [opt_base_pow]
  calc 2 ≤ b := hb
    _ = b ^ 1 := (pow_one b).symm
    _ ≤ b ^ opt_digits b := Nat.pow_le_pow_right (by omega) (opt_digits_pos b)

theorem val64_eq (l : List ℕ) (h : l.length ≤ 2) : val64 l = valueL l := by
  rcases l with _ | ⟨x, _ | ⟨y, _ | ⟨z, t⟩⟩⟩
  · simp [val64, valueL]
  · simp [val64, valueL]
  · simp [val64, valueL]
  · simp at h

theorem flat_fold (b m : ℕ) (h2 : 2 ≤ b) (hb : b ≤ 36) : ∀ (ds : List ℕ) (acc : ℕ),
    (∀ c ∈ ds, c < b ^ m) →
    foldChars b acc (ds.map (renderPad b m)).flatten =
      ds.foldl (fun a c => a * b ^ m + c) acc := by
  intro ds
  induction ds with
  | nil => intro acc _; rfl
  | cons c cs ih =>
    intro acc hbd
    simp only [List.map_cons, List.flatten_cons, List.foldl_cons]
    rw [foldChars_append, renderPad_fold b h2 hb]
    rw [Nat.mod_eq_of_lt (hbd c (by simp))]
    exact ih _ (fun z hz => hbd z (by simp [hz]))

theorem to_string_general_spec (b : ℕ) (h2 : 2 ≤ b) (hb : b ≤ 36) (l : List ℕ)
    (hl : NormalizedL l) :
    foldChars b 0 (to_string_general b l) = valueL l ∧
    (∀ c ∈ to_string_general b l, charToDigit c < b) := by
  have hzd : charToDigit '0' = 0 := by decide
  simp only [to_string_general]
  by_cases hz : l = [0]
  · rw [if_pos (by simp [bu_is_zero, hz])]
    subst hz
    constructor
    · rw [foldChars_cons, foldChars_nil, hzd]
      simp [valueL]
    · intro c hc
      simp only [List.mem_cons, List.not_mem_nil, or_false] at hc
      subst hc
      rw [hzd]
      omega
  · rw [if_neg (by simp [bu_is_zero, hz])]
    by_cases hlen : l.length ≤ 2
    · rw [if_pos hlen]
      constructor
      · rw [renderLSB_fold b h2 hb _ _ (Nat.lt_succ_self _), val64_eq l hlen]
      · intro c hc
        exact renderLSB_valid b h2 hb _ _ c (List.mem_reverse.mp hc)
    · rw [if_neg hlen]
      have hCB2 : 2 ≤ opt_base b := opt_base_ge b h2
      have hvpos : 0 < valueL l := by
        rcases Nat.eq_zero_or_pos (valueL l) with h | h
        · exact absurd ((norm_value_zero_iff l hl).mp h) hz
        · exact h
      rw [superdigits_eq_natChunks _ hCB2 _ _ hl]
      obtain ⟨d, ds, hds, hdpos⟩ := natChunks_last _ hCB2 (valueL l + 1) (valueL l)
        hvpos (Nat.lt_succ_self _)
      rw [hds, renderChunksMSB, if_pos (show d ≠ 0 by omega)]
      have hbds : ∀ c ∈ ds, c < b ^ opt_digits b := by
        intro z hz2
        rw [← opt_base_pow]
        refine natChunks_bound (opt_base b) (by omega) (valueL l + 1) (valueL l) z ?_
        rw [← List.mem_reverse, hds]
        simp [hz2]
      have hne : (renderLSB b (d + 1) d).reverse ++
          (ds.map (renderPad b (opt_digits b))).flatten ≠ [] := by
        intro hcon
        have hsp := List.append_eq_nil.mp hcon
        have h3 := renderLSB_ne_nil b d d
        rw [List.reverse_eq_nil_iff] at hsp
        exact h3 hsp.1
      rw [if_neg hne]
      constructor
      · rw [foldChars_append, renderLSB_fold b h2 hb _ _ (Nat.lt_succ_self d)]
        have hflat := flat_fold b (opt_digits b) h2 hb ds d hbds
        rw [hflat]
        have hfold := natChunks_foldRev (opt_base b) hCB2 (valueL l + 1) (valueL l) 0
          (Nat.lt_succ_self _)
        rw [hds, List.foldl_cons] at hfold
        simp only [zero_mul, zero_add] at hfold
        rw [← opt_base_pow]
        exact hfold
      · intro c hc
        rcases List.mem_append.mp hc with h | h
        · exact renderLSB_valid b h2 hb _ _ c (List.mem_reverse.mp h)
        · obtain ⟨blk, hblk, hcblk⟩ := List.mem_flatten.mp h
          obtain ⟨v, hv, rfl⟩ := List.mem_map.mp hblk
          exact renderPad_valid b h2 hb _ _ c hcblk

theorem to_string_base_10_eq (l : List ℕ) : to_string_base_10 l = to_string_general 10 l := by
  have h1 : opt_base 10 = 1000000000 := by decide
  have h2 : opt_digits 10 = 9 := by decide
  simp only [to_string_base_10, to_string_general, h1, h2]

/-! ### base-2 rendering -/

theorem bit_bridge : ∀ (l : List ℕ), (∀ x ∈ l, x < limbW) → ∀ i : ℕ,
    l.getD (i / 32) 0 / 2 ^ (i % 32) % 2 = valueL l / 2 ^ i % 2 := by
  intro l
  induction l with
  | nil =>
    intro _ i
    simp [valueL]
  | cons x xs ih =>
    intro hb i
    have hxW : x < limbW := hb x (by simp)
    by_cases hi : i < 32
    · rw [Nat.div_eq_of_lt hi, Nat.mod_eq_of_lt hi]
      simp only [List.getD_cons_zero, valueL_cons]
      have hW : limbW = 2 ^ i * 2 ^ (32 - i) := by
        rw [← pow_add]
        unfold limbW
        congr 1
        omega
      rw [hW]
      have h1 : (x + 2 ^ i * 2 ^ (32 - i) * valueL xs) / 2 ^ i =
          x / 2 ^ i + 2 ^ (32 - i) * valueL xs := by
        rw [mul_assoc]
        exact Nat.add_mul_div_left x _ (Nat.pos_pow_of_pos i (by omega))
      rw [h1]
      have h2 : 2 ^ (32 - i) * valueL xs = 2 ^ (31 - i) * valueL xs * 2 := by
        have : (2 : ℕ) ^ (32 - i) = 2 ^ (31 - i) * 2 := by
          rw [← pow_succ]
          congr 1
          omega
        rw [this]
        ring
      rw [h2, Nat.add_mul_mod_self_right]
    · have h32 : 32 ≤ i := by omega
      have hq : i / 32 = (i - 32) / 32 + 1 := by omega
      have hr : i % 32 = (i - 32) % 32 := by omega
      rw [hq, hr, List.getD_cons_succ, valueL_cons]
      rw [ih (fun z hz => hb z (by simp [hz])) (i - 32)]
      have hp : (2 : ℕ) ^ i = 2 ^ 32 * 2 ^ (i - 32) := by
        rw [← pow_add]
        congr 1
        omega
      rw [hp, ← Nat.div_div_eq_div_mul]
      have hxv : (x + limbW * valueL xs) / 2 ^ 32 = valueL xs := by
        unfold limbW
        rw [Nat.add_mul_div_left x _ (by norm_num)]
        rw [Nat.div_eq_of_lt (by simpa [limbW] using hxW)]
        omega
      rw [hxv]

theorem bu_bit_test_value (l : List ℕ) (hb : ∀ x ∈ l, x < limbW) (i : ℕ) :
    bu_bit_test l i = decide (valueL l / 2 ^ i % 2 = 1) := by
  unfold bu_bit_test
  rw [bit_bridge l hb i]

theorem foldDigitsMSB (B : ℕ) (hB : 0 < B) : ∀ (m n acc : ℕ),
    List.foldl (fun a j => a * B + n / B ^ (m - 1 - j) % B) acc (List.range m) =
    acc * B ^ m + n % B ^ m := by
  intro m
  induction m with
  | zero =>
    intro n acc
    simp [Nat.mod_one]
  | succ k ih =>
    intro n acc
    rw [List.range_succ, List.foldl_append]
    have hstep : List.foldl (fun a j => a * B + n / B ^ (k + 1 - 1 - j) % B) acc
        (List.range k) =
        List.foldl (fun a j => a * B + n / B / B ^ (k - 1 - j) % B) acc (List.range k) := by
      refine List.foldl_ext _ _ acc ?_
      intro a j hj
      have hjk : j < k := List.mem_range.mp hj
      have he1 : k + 1 - 1 - j = (k - 1 - j) + 1 := by omega
      rw [he1, pow_succ', ← Nat.div_div_eq_div_mul]
    rw [hstep, ih (n / B) acc]
    simp only [List.foldl_cons, List.foldl_nil]
    have he : k + 1 - 1 - k = 0 := by omega
    rw [he, pow_zero, Nat.div_one]
    have hmod : n % (B * B ^ k) = n % B + B * (n / B % B ^ k) := Nat.mod_mul
    have hp : B * B ^ k = B ^ (k + 1) := by rw [← pow_succ']
    rw [hp] at hmod
    have hdist : (acc * B ^ k + n / B % B ^ k) * B =
        acc * B ^ (k + 1) + B * (n / B % B ^ k) := by
      rw [← hp]; ring
    omega

theorem to_string_base_2_spec (l : List ℕ) (hl : NormalizedL l) :
    foldChars 2 0 (to_string_base_2 l) = valueL l ∧
    (∀ c ∈ to_string_base_2 l, charToDigit c < 2) := by
  unfold to_string_base_2
  have hmap : (fun j => if bu_bit_test l (bu_bits l - j) then '1' else '0') =
      (fun j => digit_char (valueL l / 2 ^ (bu_bits l - j) % 2)) := by
    funext j
    rw [bu_bit_test_value l hl.2.1]
    rcases Nat.mod_two_eq_zero_or_one (valueL l / 2 ^ (bu_bits l - j)) with h | h
    · rw [h]
      have hd : digit_char 0 = '0' := by decide
      simp [hd]
    · rw [h]
      have hd : digit_char 1 = '1' := by decide
      simp [hd]
  rw [hmap]
  have hn : valueL l < 2 ^ (bu_bits l + 1) := by
    rw [bu_bits_eq l hl]
    rcases Nat.eq_zero_or_pos (valueL l) with h | h
    · rw [h]
      exact Nat.pos_pow_of_pos _ (by omega)
    · exact (bitsV_spec _ (by omega)).2
  constructor
  · unfold foldChars
    rw [List.foldl_map]
    have hext : List.foldl
        (fun a j => a * 2 + charToDigit (digit_char (valueL l / 2 ^ (bu_bits l - j) % 2)))
        0 (List.range (bu_bits l + 1)) =
        List.foldl (fun a j => a * 2 + valueL l / 2 ^ (bu_bits l + 1 - 1 - j) % 2)
        0 (List.range (bu_bits l + 1)) := by
      refine List.foldl_ext _ _ 0 ?_
      intro a j hj
      have hbit : valueL l / 2 ^ (bu_bits l - j) % 2 < 2 := Nat.mod_lt _ (by omega)
      rw [charToDigit_digit_char _ (by omega)]
      have he : bu_bits l + 1 - 1 - j = bu_bits l - j := by omega
      rw [he]
    rw [hext, foldDigitsMSB 2 (by omega) (bu_bits l + 1) (valueL l) 0]
    rw [Nat.mod_eq_of_lt hn]
    omega
  · intro c hc
    obtain ⟨j, hj, rfl⟩ := List.mem_map.mp hc
    have hbit : valueL l / 2 ^ (bu_bits l - j) % 2 < 2 := Nat.mod_lt _ (by omega)
    rw [charToDigit_digit_char _ (by omega)]
    omega


/-! ### base-16 rendering -/

theorem hexHeadGo_true (x : ℕ) : ∀ (js : List ℕ),
    hexHeadGo x js true = js.map (fun j => digit_char (x / 2 ^ (4 * (7 - j)) % 16)) := by
  intro js
  induction js with
  | nil => rw [hexHeadGo]; rfl
  | cons j js ih => simp [hexHeadGo, ih]

theorem hexHeadGo_valid (x : ℕ) : ∀ (js : List ℕ) (shown : Bool),
    ∀ c ∈ hexHeadGo x js shown, charToDigit c < 16 := by
  intro js
  induction js with
  | nil => intro shown c hc; rw [hexHeadGo] at hc; exact absurd hc (List.not_mem_nil c)
  | cons j js ih =>
    intro shown c hc
    have hm : x / 2 ^ (4 * (7 - j)) % 16 < 16 := Nat.mod_lt _ (by omega)
    simp only [hexHeadGo] at hc
    split at hc
    · rcases List.mem_cons.mp hc with rfl | h
      · rw [charToDigit_digit_char _ (by omega)]
        omega
      · exact ih true c h
    · split at hc
      · rcases List.mem_cons.mp hc with rfl | h
        · rw [charToDigit_digit_char _ (by omega)]
          omega
        · exact ih true c h
      · exact ih false c hc

theorem pow16_pow2 (k : ℕ) : (16 : ℕ) ^ k = 2 ^ (4 * k) := by
  rw [pow_mul]
  norm_num

theorem hexHeadGo_true_fold (x : ℕ) : ∀ (cnt t acc : ℕ), t + cnt = 8 →
    foldChars 16 acc (hexHeadGo x (List.range' t cnt) true) = acc * 16 ^ cnt + x % 16 ^ cnt := by
  intro cnt
  induction cnt with
  | zero =>
    intro t acc _
    rw [show List.range' t 0 = [] from rfl, hexHeadGo, foldChars_nil]
    simp [Nat.mod_one]
  | succ k ih =>
    intro t acc ht
    rw [List.range'_succ t k 1]
    simp only [hexHeadGo]
    rw [if_pos trivial]
    rw [foldChars_cons]
    have hsh : x / 2 ^ (4 * (7 - t)) = x / 16 ^ k := by
      rw [pow16_pow2]
      congr 2
      omega
    have hm : x / 2 ^ (4 * (7 - t)) % 16 < 16 := Nat.mod_lt _ (by omega)
    rw [charToDigit_digit_char _ (by omega)]
    rw [ih (t + 1) _ (by omega)]
    rw [hsh, mod_pow_top 16 k x]
    ring

theorem hexHeadGo_false_fold (x : ℕ) : ∀ (cnt t : ℕ), t + cnt = 8 →
    foldChars 16 0 (hexHeadGo x (List.range' t cnt) false) = x % 16 ^ cnt := by
  intro cnt
  induction cnt with
  | zero =>
    intro t _
    rw [show List.range' t 0 = [] from rfl, hexHeadGo, foldChars_nil]
    simp [Nat.mod_one]
  | succ k ih =>
    intro t ht
    rw [List.range'_succ t k 1]
    simp only [hexHeadGo]
    rw [if_neg (by simp)]
    have hsh : x / 2 ^ (4 * (7 - t)) = x / 16 ^ k := by
      rw [pow16_pow2]
      congr 2
      omega
    split
    · rename_i hpos
      rw [foldChars_cons]
      have hm : x / 2 ^ (4 * (7 - t)) % 16 < 16 := Nat.mod_lt _ (by omega)
      rw [charToDigit_digit_char _ (by omega)]
      rw [hexHeadGo_true_fold x k (t + 1) _ (by omega)]
      rw [hsh, mod_pow_top 16 k x]
      ring
    · rename_i hz
      rw [ih (t + 1) (by omega)]
      have hxlt : x < 16 ^ k := by
        rcases Nat.lt_or_ge x (16 ^ k) with h2 | h2
        · exact h2
        · exfalso
          have := Nat.div_pos h2 (Nat.pos_pow_of_pos k (by omega))
          rw [← hsh] at this
          omega
      rw [Nat.mod_eq_of_lt hxlt, Nat.mod_eq_of_lt (lt_of_lt_of_le hxlt
        (Nat.pow_le_pow_right (by omega) (by omega)))]

theorem hexHead_fold (x : ℕ) (hx : x < limbW) : foldChars 16 0 (hexHead x) = x := by
  unfold hexHead
  rw [List.range_eq_range' 8, hexHeadGo_false_fold x 8 0 rfl]
  refine Nat.mod_eq_of_lt ?_
  have h1 : (16 : ℕ) ^ 8 = limbW := by norm_num [limbW, pow16_pow2]
  omega

theorem blockFold (x : ℕ) (hx : x < limbW) (acc : ℕ) :
    foldChars 16 acc ((List.range 8).map (fun j => digit_char (x / 2 ^ (4 * (7 - j)) % 16))) =
    acc * limbW + x := by
  rw [← hexHeadGo_true x (List.range 8), List.range_eq_range' 8,
    hexHeadGo_true_fold x 8 0 acc rfl]
  have h1 : (16 : ℕ) ^ 8 = limbW := by norm_num [limbW, pow16_pow2]
  rw [h1, Nat.mod_eq_of_lt hx]

theorem flatBlocks_fold : ∀ (ls : List ℕ) (acc : ℕ), (∀ x ∈ ls, x < limbW) →
    foldChars 16 acc
      (ls.map (fun x => (List.range 8).map
        (fun j => digit_char (x / 2 ^ (4 * (7 - j)) % 16)))).flatten =
    ls.foldl (fun a x => a * limbW + x) acc := by
  intro ls
  induction ls with
  | nil => intro acc _; rfl
  | cons x xs ih =>
    intro acc hbd
    simp only [List.map_cons, List.flatten_cons, List.foldl_cons]
    rw [foldChars_append, blockFold x (hbd x (by simp)) acc]
    exact ih _ (fun z hz => hbd z (by simp [hz]))

theorem valueL_foldl_acc : ∀ (l : List ℕ) (acc : ℕ),
    l.reverse.foldl (fun a x => a * limbW + x) acc = acc * limbW ^ l.length + valueL l := by
  intro l
  induction l with
  | nil => intro acc; simp [valueL]
  | cons x xs ih =>
    intro acc
    rw [List.reverse_cons, List.foldl_append, ih acc]
    simp only [List.foldl_cons, List.foldl_nil, List.length_cons, valueL_cons]
    have h1 : (acc * limbW ^ xs.length + valueL xs) * limbW =
        acc * limbW ^ (xs.length + 1) + limbW * valueL xs := by ring
    omega

theorem to_string_base_16_spec (l : List ℕ) (hl : NormalizedL l) :
    foldChars 16 0 (to_string_base_16 l) = valueL l ∧
    (∀ c ∈ to_string_base_16 l, charToDigit c < 16) := by
  have hne : l ≠ [] := hl.1
  have htop : l.getLastD 0 = l.getLast hne := by
    rw [List.getLastD_eq_getLast?, List.getLast?_eq_getLast l hne]
    rfl
  have htopW : l.getLastD 0 < limbW := by
    rw [htop]
    exact hl.2.1 _ (List.getLast_mem hne)
  unfold to_string_base_16
  constructor
  · rw [foldChars_append, hexHead_fold _ htopW]
    rw [flatBlocks_fold l.dropLast.reverse _ (fun z hz =>
      hl.2.1 z (List.dropLast_subset l (List.mem_reverse.mp hz)))]
    have hval := valueL_foldl_acc l 0
    have hrev : l.reverse = l.getLast hne :: l.dropLast.reverse := by
      conv_lhs => rw [← List.dropLast_concat_getLast hne]
      rw [List.reverse_append]
      rfl
    rw [hrev] at hval
    simp only [List.foldl_cons, zero_mul, zero_add] at hval
    rw [htop]
    exact hval
  · intro c hc
    rcases List.mem_append.mp hc with h | h
    · exact hexHeadGo_valid _ _ _ c h
    · obtain ⟨blk, hblk, hcblk⟩ := List.mem_flatten.mp h
      obtain ⟨v, hv, rfl⟩ := List.mem_map.mp hblk
      obtain ⟨j, hj, rfl⟩ := List.mem_map.mp hcblk
      have hm : v / 2 ^ (4 * (7 - j)) % 16 < 16 := Nat.mod_lt _ (by omega)
      rw [charToDigit_digit_char _ (by omega)]
      omega

theorem to_string_template_spec (b : ℕ) (h2 : 2 ≤ b) (hb : b ≤ 36) (l : List ℕ)
    (hl : NormalizedL l) :
    foldChars b 0 (to_string_template b l) = valueL l ∧
    (∀ c ∈ to_string_template b l, charToDigit c < b) := by
  unfold to_string_template
  by_cases hb2 : b = 2
  · subst hb2
    rw [if_pos rfl]
    exact to_string_base_2_spec l hl
  · rw [if_neg hb2]
    by_cases hb10 : b = 10
    · subst hb10
      rw [if_pos rfl, to_string_base_10_eq]
      exact to_string_general_spec 10 (by omega) (by omega) l hl
    · rw [if_neg hb10]
      by_cases hb16 : b = 16
      · subst hb16
        rw [if_pos rfl]
        exact to_string_base_16_spec l hl
      · rw [if_neg hb16]
        exact to_string_general_spec b h2 hb l hl

/-! ### string parsing -/

theorem block_len_loop_ge (b : ℕ) : ∀ (f n i : ℕ), i ≤ block_len_loop b f n i := by
  intro f
  induction f with
  | zero => intro n i; rw [block_len_loop]
  | succ g ih =>
    intro n i
    rw [block_len_loop]
    split
    · exact le_trans (by omega) (ih (n * b) (i + 1))
    · exact Nat.le_refl i

theorem block_len_pos (b : ℕ) : 1 ≤ block_len b := block_len_loop_ge b 40 b 1

theorem block_len_loop_bound (b : ℕ) (hb : 2 ≤ b) : ∀ (f n i : ℕ), n = b ^ i →
    n ≤ 2 ^ 32 - 1 → b ^ block_len_loop b f n i ≤ 2 ^ 32 - 1 := by
  intro f
  induction f with
  | zero =>
    intro n i h hle
    rw [block_len_loop, ← h]
    exact hle
  | succ g ih =>
    intro n i h hle
    rw [block_len_loop]
    split
    · rename_i hcond
      exact ih (n * b) (i + 1) (by rw [h, pow_succ])
        ((Nat.le_div_iff_mul_le (show 0 < b by omega)).mp hcond)
    · rw [← h]
      exact hle

theorem base_power_le (b : ℕ) (hb : 2 ≤ b) (hb36 : b ≤ 36) : base_power b ≤ 2 ^ 32 - 1 := by
  unfold base_power block_len
  exact block_len_loop_bound b hb 40 b 1 (by rw [pow_one])
    (by have h32 : (2 : ℕ) ^ 32 = 4294967296 := by norm_num
        omega)

theorem limbs64_small (v : ℕ) (h : v ≤ 2 ^ 32 - 1) : limbs64 v = [v] := by
  unfold limbs64
  rw [if_neg (by omega)]
  have h32 : (2 : ℕ) ^ 32 = 4294967296 := by norm_num
  rw [Nat.mod_eq_of_lt (by rw [limbW_eq]; omega)]

theorem takeChunk_spec (b : ℕ) (hb : b ≤ 36) : ∀ (cs : List Char) (bud acc cnt : ℕ),
    (∀ c ∈ cs, charToDigit c < b) →
    takeChunk b cs bud acc cnt =
      (foldChars b acc (cs.take bud), cnt + min bud cs.length, cs.drop bud) := by
  intro cs
  induction cs with
  | nil =>
    intro bud acc cnt _
    cases bud with
    | zero => rw [takeChunk]; simp [foldChars]
    | succ m => rw [takeChunk]; simp [foldChars]
  | cons c cs ih =>
    intro bud acc cnt hv
    cases bud with
    | zero => rw [takeChunk]; simp [foldChars]
    | succ m =>
      rw [takeChunk]
      have hc : charToDigit c < b := hv c (by simp)
      rw [if_neg (by omega)]
      rw [ih m (acc * b + charToDigit c) (cnt + 1) (fun z hz => hv z (by simp [hz]))]
      simp only [List.take_succ_cons, List.drop_succ_cons, List.length_cons, foldChars_cons,
        Prod.mk.injEq]
      refine ⟨trivial, ?_, trivial⟩
      omega

theorem from_str_chunks_spec (b : ℕ) (h2 : 2 ≤ b) (hb : b ≤ 36) : ∀ (fuel : ℕ)
    (cs : List Char) (acc : List ℕ), cs.length < fuel →
    (∀ c ∈ cs, charToDigit c < b) → NormalizedL acc →
    valueL (from_str_chunks b fuel cs acc) = valueL acc * b ^ cs.length + foldChars b 0 cs ∧
    NormalizedL (from_str_chunks b fuel cs acc) := by
  intro fuel
  induction fuel with
  | zero => intro cs acc h _ _; exact absurd h (Nat.not_lt_zero _)
  | succ f ih =>
    intro cs acc hlen hv hacc
    cases cs with
    | nil =>
      simp only [from_str_chunks]
      refine ⟨?_, hacc⟩
      simp [foldChars]
    | cons c cs =>
      have htc := takeChunk_spec b hb (c :: cs) (block_len b) 0 0 hv
      have hk : (takeChunk b (c :: cs) (block_len b) 0 0).2.1 =
          min (block_len b) (c :: cs).length := by rw [htc]; simp
      have hvv : (takeChunk b (c :: cs) (block_len b) 0 0).1 =
          foldChars b 0 ((c :: cs).take (block_len b)) := by rw [htc]
      have hrest : (takeChunk b (c :: cs) (block_len b) 0 0).2.2 =
          (c :: cs).drop (block_len b) := by rw [htc]
      have hblp := block_len_pos b
      have hkpos : 0 < min (block_len b) (c :: cs).length := by
        simp only [List.length_cons]
        omega
      simp only [from_str_chunks]
      rw [hk, hvv, hrest, if_pos hkpos]
      have hpw : (if min (block_len b) (c :: cs).length = block_len b then base_power b
          else b ^ min (block_len b) (c :: cs).length) =
          b ^ min (block_len b) (c :: cs).length := by
        split
        · rename_i he
          rw [he]
          rfl
        · rfl
      rw [hpw]
      have hkle : min (block_len b) (c :: cs).length ≤ block_len b := Nat.min_le_left _ _
      have hpwle : b ^ min (block_len b) (c :: cs).length ≤ 2 ^ 32 - 1 :=
        le_trans (Nat.pow_le_pow_right (by omega) hkle) (base_power_le b h2 hb)
      have h32 : (2 : ℕ) ^ 32 = 4294967296 := by norm_num
      rw [limbs64_small _ hpwle]
      have hpwW : b ^ min (block_len b) (c :: cs).length < limbW := by
        rw [limbW_eq]
        omega
      have hnpw : NormalizedL [b ^ min (block_len b) (c :: cs).length] :=
        norm_single _ hpwW
      have htklen : ((c :: cs).take (block_len b)).length =
          min (block_len b) (c :: cs).length := List.length_take _ _
      have hchunk : foldChars b 0 ((c :: cs).take (block_len b)) <
          b ^ min (block_len b) (c :: cs).length := by
        have h1 := foldChars_lt b (by omega) ((c :: cs).take (block_len b)) 0
          (fun z hz => hv z (List.take_subset _ _ hz))
        rw [htklen] at h1
        simpa using h1
      have hnchunk : NormalizedL [foldChars b 0 ((c :: cs).take (block_len b))] :=
        norm_single _ (by omega)
      obtain ⟨hmv, hmn⟩ := bu_mul_spec acc _ hacc hnpw
      obtain ⟨hav, han⟩ := bu_add_spec _ _ hmn hnchunk
      obtain ⟨hrv, hrn⟩ := ih ((c :: cs).drop (block_len b)) _
        (by
          have := List.length_drop (block_len b) (c :: cs)
          simp only [List.length_cons] at hlen this ⊢
          omega)
        (fun z hz => hv z (List.drop_subset _ _ hz)) han
      refine ⟨?_, hrn⟩
      rw [hrv, hav, hmv]
      have hval1 : valueL [b ^ min (block_len b) (c :: cs).length] =
          b ^ min (block_len b) (c :: cs).length := by simp [valueL]
      have hval2 : valueL [foldChars b 0 ((c :: cs).take (block_len b))] =
          foldChars b 0 ((c :: cs).take (block_len b)) := by simp [valueL]
      rw [hval1, hval2]
      have hsplit : (c :: cs).take (block_len b) ++ (c :: cs).drop (block_len b) = c :: cs :=
        List.take_append_drop _ _
      have hfold : foldChars b 0 (c :: cs) =
          foldChars b 0 ((c :: cs).take (block_len b)) * b ^ ((c :: cs).drop (block_len b)).length +
          foldChars b 0 ((c :: cs).drop (block_len b)) := by
        conv_lhs => rw [← hsplit]
        rw [foldChars_append, foldChars_acc]
      have hpowsplit : b ^ (c :: cs).length =
          b ^ min (block_len b) (c :: cs).length * b ^ ((c :: cs).drop (block_len b)).length := by
        rw [← pow_add]
        congr 1
        have := List.length_drop (block_len b) (c :: cs)
        omega
      rw [hfold, hpowsplit]
      ring

theorem from_str_core_spec (b : ℕ) (h2 : 2 ≤ b) (hb : b ≤ 36) (cs : List Char)
    (hv : ∀ c ∈ cs, charToDigit c < b) :
    valueL (from_str_core b cs) = foldChars b 0 cs ∧ NormalizedL (from_str_core b cs) := by
  unfold from_str_core
  rw [if_neg (by omega)]
  have hnone : ¬ (cs.any (fun c => 99 ≤ charToDigit c || decide (b ≤ charToDigit c)) = true) := by
    rw [List.any_eq_true]
    rintro ⟨c, hc, hd⟩
    have := hv c hc
    simp only [Bool.or_eq_true, decide_eq_true_eq] at hd
    omega
  rw [if_neg hnone]
  obtain ⟨h1, hn⟩ := from_str_chunks_spec b h2 hb (cs.length + 1) cs [0]
    (Nat.lt_succ_self _) hv norm_zero_list
  refine ⟨?_, hn⟩
  rw [h1]
  simp [valueL]

theorem round_trip (b : ℕ) (h2 : 2 ≤ b) (hb : b ≤ 36) (l : List ℕ) (hl : NormalizedL l) :
    valueL (from_str_core b (to_string_template b l)) = valueL l ∧
    NormalizedL (from_str_core b (to_string_template b l)) := by
  obtain ⟨hfold, hvalid⟩ := to_string_template_spec b h2 hb l hl
  obtain ⟨h1, hn⟩ := from_str_core_spec b h2 hb _ hvalid
  exact ⟨by rw [h1, hfold], hn⟩

/-! ### fraction comparison -/

theorem fracVal_nonneg_eq (f : Frac) (h : f.neg = false) :
    fracVal f = (f.num : ℚ) / f.den := by
  simp [fracVal, h]

theorem fracVal_neg_eq (f : Frac) (h : f.neg = true) :
    fracVal f = -((f.num : ℚ) / f.den) := by
  simp [fracVal, h, neg_div]

theorem fracLt_iff (a b : Frac) (had : a.den ≠ 0) (hbd : b.den ≠ 0)
    (hza : a.num = 0 → a.neg = false) (hzb : b.num = 0 → b.neg = false) :
    fracLt a b = true ↔ fracVal a < fracVal b := by
  have hda : (0 : ℚ) < (a.den : ℚ) := by
    exact_mod_cast Nat.pos_of_ne_zero had
  have hdb : (0 : ℚ) < (b.den : ℚ) := by
    exact_mod_cast Nat.pos_of_ne_zero hbd
  cases hna : a.neg <;> cases hnb : b.neg
  · rw [fracVal_nonneg_eq a hna, fracVal_nonneg_eq b hnb]
    have hlt : fracLt a b = decide (a.num * b.den < b.num * a.den) := by
      simp [fracLt, hna, hnb]
    rw [hlt, decide_eq_true_eq, div_lt_div_iff₀ hda hdb]
    exact ⟨fun h => by exact_mod_cast h, fun h => by exact_mod_cast h⟩
  · have hbn : b.num ≠ 0 := fun h => by simp [hzb h] at hnb
    rw [fracVal_nonneg_eq a hna, fracVal_neg_eq b hnb]
    have hlt : fracLt a b = false := by simp [fracLt, hna, hnb]
    rw [hlt]
    have h1 : (0 : ℚ) ≤ (a.num : ℚ) / (a.den : ℚ) := by positivity
    have h2 : -((b.num : ℚ) / (b.den : ℚ)) < 0 := by
      rw [neg_lt_zero]
      refine div_pos ?_ hdb
      exact_mod_cast Nat.pos_of_ne_zero hbn
    constructor
    · intro h
      simp at h
    · intro h
      exfalso
      linarith
  · have han : a.num ≠ 0 := fun h => by simp [hza h] at hna
    rw [fracVal_neg_eq a hna, fracVal_nonneg_eq b hnb]
    have hlt : fracLt a b = true := by simp [fracLt, hna, hnb]
    rw [hlt]
    have h1 : (0 : ℚ) ≤ (b.num : ℚ) / (b.den : ℚ) := by positivity
    have h2 : -((a.num : ℚ) / (a.den : ℚ)) < 0 := by
      rw [neg_lt_zero]
      refine div_pos ?_ hda
      exact_mod_cast Nat.pos_of_ne_zero han
    constructor
    · intro _
      linarith
    · intro _
      rfl
  · rw [fracVal_neg_eq a hna, fracVal_neg_eq b hnb]
    have hlt : fracLt a b = decide (b.num * a.den < a.num * b.den) := by
      simp [fracLt, hna, hnb]
    rw [hlt, decide_eq_true_eq, neg_lt_neg_iff, div_lt_div_iff₀ hdb hda]
    exact ⟨fun h => by exact_mod_cast h, fun h => by exact_mod_cast h⟩

/-! ## The claims -/

/-- Claim C1: the spec demands that division and modulo by a zero `big_uint`
both raise a division-by-zero error and never silently return zero.  In the
code `operator/` (and `div`) do throw, but `operator%` returns the zero
big_uint for a zero divisor (and for a zero dividend) without throwing, so
the modulo half of the claim is false of the code. -/
theorem C1_div_mod_zero :
    op_div 5 0 = .error () ∧ bu_div 5 0 = .error () ∧ op_mod 5 0 = 0 := by
  refine ⟨by decide, by decide, by decide⟩

/-- Claim C2: for a nonzero divisor the division primitives return exactly
the euclidean quotient and remainder, which satisfy the floor-division
invariant `q·b ≤ a < (q+1)·b` and `r = a − q·b` (hence
`(a/b)*b + a%b = a` and `a%b < b`). -/
theorem C2_division_invariant (a b : ℕ) (hb : 0 < b) :
    division_newton_raphson a b = (a / b, a % b) ∧
    bu_div a b = .ok (a / b, a % b) ∧
    a / b * b ≤ a ∧ a < (a / b + 1) * b ∧ a % b = a - a / b * b := by
  have hdm := Nat.div_add_mod a b
  have hm : a % b < b := Nat.mod_lt a hb
  have h1 : b * (a / b) = a / b * b := by ring
  have h2 : (a / b + 1) * b = a / b * b + b := by ring
  exact ⟨division_newton_raphson_spec a b hb, bu_div_ok a b hb, by omega, by omega, by omega⟩

theorem C2_witness :
    0 < 3 ∧
    (division_newton_raphson 7 3 = (7 / 3, 7 % 3) ∧
     bu_div 7 3 = .ok (7 / 3, 7 % 3) ∧
     7 / 3 * 3 ≤ 7 ∧ 7 < (7 / 3 + 1) * 3 ∧ 7 % 3 = 7 - 7 / 3 * 3) :=
  ⟨by decide, C2_division_invariant 7 3 (by decide)⟩

/-- Claim C3: the spec says simplification is idempotent and that a zero
value is always stored as `(0, 1, sign false)`.  Both parts fail in the
code: `simplify()` on the state `(67108866, 67108867, max_bits 25)`
right-shifts both terms and then fails to divide by their gcd (the gcd
routine returns `0` for the equal odd operands, see C6), leaving
`(33554433, 33554433)`, while a second `simplify()` collapses that state to
`(1, 1)` — so one and two applications disagree; and `(1/2) += (-1/2)`
produces numerator `0`, denominator `1` with sign `true`, because the
sign-delegation of `operator+=` flips the sign after the inner operation
and `simplify()`'s early return for denominator 1 skips the zero
canonicalization. -/
theorem C3_simplify_not_idempotent :
    simplifyE ⟨67108866, 67108867, false, 25⟩ = .ok ⟨33554433, 33554433, false, 25⟩ ∧
    simplifyE ⟨33554433, 33554433, false, 25⟩ = .ok ⟨1, 1, false, 25⟩ ∧
    fracAdd ⟨1, 2, false, 256⟩ ⟨1, 2, true, 256⟩ = .ok ⟨0, 1, true, 256⟩ := by
  refine ⟨by decide, by decide, by decide⟩

/-- Claim C4: on normalized operands the schoolbook routine and the
karatsuba routine return identical limb vectors, and both compute the exact
mathematical product of the values. -/
theorem C4_mul_paths_agree (a b : List ℕ) (ha : NormalizedL a) (hb : NormalizedL b) :
    multiply_default a b = multiply_karatsuba a b ∧
    valueL (multiply_default a b) = valueL a * valueL b ∧
    valueL (multiply_karatsuba a b) = valueL a * valueL b := by
  obtain ⟨hd, hdn⟩ := multiply_default_spec a b ha hb
  obtain ⟨hk, hkn⟩ := multiply_karatsuba_spec a b ha hb
  exact ⟨valueL_inj hdn hkn (by rw [hd, hk]), hd, hk⟩

theorem C4_witness :
    NormalizedL [5] ∧ NormalizedL [7] ∧
    (multiply_default [5] [7] = multiply_karatsuba [5] [7] ∧
     valueL (multiply_default [5] [7]) = valueL [5] * valueL [7] ∧
     valueL (multiply_karatsuba [5] [7]) = valueL [5] * valueL [7]) :=
  ⟨by decide, by decide, C4_mul_paths_agree [5] [7] (by decide) (by decide)⟩

/-- Claim C5: for every normalized big_uint and every base in 2..36,
`to_string` succeeds, parsing the produced string back in the same base
succeeds, and the parsed value equals the original value. -/
theorem C5_round_trip_claim (l : List ℕ) (b : ℕ) (h2 : 2 ≤ b) (hb : b ≤ 36)
    (hl : NormalizedL l) :
    ∃ s : String, to_string l b = .ok s ∧
      bu_from_string s b = .ok (from_str_core b s.data) ∧
      valueL (from_str_core b s.data) = valueL l ∧
      NormalizedL (from_str_core b s.data) := by
  refine ⟨⟨to_string_template b l⟩, ?_, ?_, ?_, ?_⟩
  · unfold to_string
    rw [if_neg (by omega)]
  · unfold bu_from_string
    rw [if_neg (by omega)]
  · exact (round_trip b h2 hb l hl).1
  · exact (round_trip b h2 hb l hl).2

theorem C5_witness :
    2 ≤ 10 ∧ 10 ≤ 36 ∧ NormalizedL [753] ∧
    (∃ s : String, to_string [753] 10 = .ok s ∧
      bu_from_string s 10 = .ok (from_str_core 10 s.data) ∧
      valueL (from_str_core 10 s.data) = valueL [753] ∧
      NormalizedL (from_str_core 10 s.data)) :=
  ⟨by decide, by decide, by decide, C5_round_trip_claim [753] 10 (by decide) (by decide) (by decide)⟩

/-- Claim C6: the spec's gcd properties include `gcd(a,a) = a`.  The code's
early returns give `gcd(a,0) = a`, and small inputs work (`gcd(12,18) = 6`),
but `gcd(33554433, 33554433)` returns `0`: after the subtraction step the
loop reaches `x = 33554433, y = 0`, the swap makes `x = 0`, and since the
bit-length gap `bits(33554433) - bits(0) = 25` exceeds 24 the loop executes
`y %= x` with `x = 0`, which by `operator%`'s silent zero (C1) yields `0`;
`gcd(a,a) = a` and the divides-both property are therefore false of the
code whenever the odd part of the common value has bit index above 24. -/
theorem C6_gcd_self_zero :
    bu_gcd 33554433 33554433 = 0 ∧ bu_gcd 12 18 = 6 ∧ bu_gcd 33554433 0 = 33554433 := by
  refine ⟨by decide, by decide, by decide⟩

/-- Claim C7: `operator<` does order by exact signed rational value (for
states with nonzero denominators and canonical zero): opposite signs decide
by sign alone, equal signs by cross-multiplication, inverted when both are
negative.  But `operator<=` is `return !(*this < other);` — the same body as
`operator>=` — i.e. it computes `≥`, not `≤`: on `1/1 ≤ 2/1` it returns
`false` although the values satisfy `1 ≤ 2`. -/
theorem C7_compare_ops (a b : Frac) (had : a.den ≠ 0) (hbd : b.den ≠ 0)
    (hza : a.num = 0 → a.neg = false) (hzb : b.num = 0 → b.neg = false) :
    (fracLt a b = true ↔ fracVal a < fracVal b) ∧
    fracLe a b = !fracLt a b ∧
    fracLe a b = fracGe a b ∧
    (fracLe ⟨1, 1, false, 256⟩ ⟨2, 1, false, 256⟩ = false ∧
     fracVal ⟨1, 1, false, 256⟩ ≤ fracVal ⟨2, 1, false, 256⟩) := by
  refine ⟨fracLt_iff a b had hbd hza hzb, rfl, rfl, by decide, by norm_num [fracVal]⟩

theorem C7_witness :
    (⟨1, 2, false, 8⟩ : Frac).den ≠ 0 ∧ (⟨3, 4, false, 8⟩ : Frac).den ≠ 0 ∧
    ((⟨1, 2, false, 8⟩ : Frac).num = 0 → (⟨1, 2, false, 8⟩ : Frac).neg = false) ∧
    ((⟨3, 4, false, 8⟩ : Frac).num = 0 → (⟨3, 4, false, 8⟩ : Frac).neg = false) ∧
    ((fracLt ⟨1, 2, false, 8⟩ ⟨3, 4, false, 8⟩ = true ↔
        fracVal ⟨1, 2, false, 8⟩ < fracVal ⟨3, 4, false, 8⟩) ∧
     fracLe ⟨1, 2, false, 8⟩ ⟨3, 4, false, 8⟩ = !fracLt ⟨1, 2, false, 8⟩ ⟨3, 4, false, 8⟩ ∧
     fracLe ⟨1, 2, false, 8⟩ ⟨3, 4, false, 8⟩ = fracGe ⟨1, 2, false, 8⟩ ⟨3, 4, false, 8⟩ ∧
     (fracLe ⟨1, 1, false, 256⟩ ⟨2, 1, false, 256⟩ = false ∧
      fracVal ⟨1, 1, false, 256⟩ ≤ fracVal ⟨2, 1, false, 256⟩)) :=
  ⟨by decide, by decide, by decide, by decide,
    C7_compare_ops ⟨1, 2, false, 8⟩ ⟨3, 4, false, 8⟩ (by decide) (by decide)
      (by decide) (by decide)⟩

/-- Claim C8 (amended): the scanner of the fraction string constructor
allows up to TWO sign characters (one for the mantissa, one for the
exponent), one decimal point and one exponent marker; a third sign, a second
dot or a second exponent marker raises invalid-argument.  The original
claim's "at most one sign" and "every malformed string is rejected" are both
false: `"--5"` passes the scan, its mantissa `"-5"` falls to the permissive
`big_uint` decimal parser which yields `0` on any invalid character, and the
constructor silently returns the value `-0` stored as `(0, 1, sign true)`.
Well-formed inputs parse to the simplified value. -/
theorem C8_sign_grammar :
    parseFraction "+-+5" 256 = .error () ∧
    parseFraction "1.2.3" 256 = .error () ∧
    parseFraction "1e2e3" 256 = .error () ∧
    parseFraction "--5" 256 = .ok ⟨0, 1, true, 256⟩ ∧
    parseFraction "-5" 256 = .ok ⟨5, 1, true, 256⟩ ∧
    parseFraction "1.25" 256 = .ok ⟨5, 4, false, 256⟩ := by
  refine ⟨by decide, by decide, by decide, by decide, by decide, by decide⟩

theorem C8_counterexample :
    parseFraction "--5" 256 = .ok ⟨0, 1, true, 256⟩ ∧
    parseFraction "--5" 256 ≠ .error () := by
  refine ⟨by decide, by decide⟩

/-- Claim C9: the decimal string "753" parses to the one-limb big_uint 753;
its `bits()` is 9 (zero-based index of the top bit, making the conventional
bit-length 10), its base-2 rendering has 10 characters and equals
"1011110001". -/
theorem C9_753_decimal :
    bu_from_string "753" 10 = .ok [753] ∧
    bu_bits [753] = 9 ∧
    (to_string_base_2 [753]).length = 10 ∧
    to_string [753] 2 = .ok "1011110001" := by
  refine ⟨by decide, by decide, by decide, by decide⟩

/-- Claim C10: on a normalized big_uint, `bits()` is `⌊log₂ value⌋` — `0`
for the zero value, and for nonzero values the zero-based index of the most
significant set bit; in particular `bits()` of 1 is 0 and of 753 is 9. -/
theorem C10_bits_log (l : List ℕ) (hl : NormalizedL l) :
    bu_bits l = Nat.log2 (valueL l) ∧
    (valueL l = 0 → bu_bits l = 0) ∧
    (valueL l ≠ 0 → 2 ^ bu_bits l ≤ valueL l ∧ valueL l < 2 ^ (bu_bits l + 1)) ∧
    bu_bits [1] = 0 ∧ bu_bits [753] = 9 := by
  have h1 : bu_bits l = bitsV (valueL l) := bu_bits_eq l hl
  refine ⟨by rw [h1, bitsV_eq_log2], ?_, ?_, by decide, by decide⟩
  · intro h0
    rw [h1, h0]
    rfl
  · intro hne
    rw [h1]
    exact bitsV_spec _ hne

theorem C10_witness :
    NormalizedL [753] ∧
    (bu_bits [753] = Nat.log2 (valueL [753]) ∧
     (valueL [753] = 0 → bu_bits [753] = 0) ∧
     (valueL [753] ≠ 0 → 2 ^ bu_bits [753] ≤ valueL [753] ∧
       valueL [753] < 2 ^ (bu_bits [753] + 1)) ∧
     bu_bits [1] = 0 ∧ bu_bits [753] = 9) :=
  ⟨by decide, C10_bits_log [753] (by decide)⟩
